import Mathlib

/-!
# Verification of the ply-rs decoding engine

Shallow embedding of the PLY decoding pipeline of the `ply-rs` crate
(header assembler in `src/parser/mod.rs`, payload decoders in
`src/parser/mod.rs`, consistency normalizer in `src/ply/consistency.rs`),
together with theorems settling the specification claims.

The data-model module (`src/ply/mod.rs`) and the PEG grammar module
(`src/parser/ply_grammar.rs`) are not part of the sources at hand; the
definitions taken from them are modelled from the specification and are
marked as such in their doc comments.
-/

namespace PlyRs

/-! ## Data model (spec §3) -/

/-- Modelled from the spec: `ScalarType` of `src/ply/mod.rs` — the eight
fixed-width scalar types of the PLY type system. -/
inductive ScalarType where
  | Char | UChar | Short | UShort | Int | UInt | Float | Double
deriving DecidableEq, Repr

/-- Modelled from the spec: `PropertyType` of `src/ply/mod.rs` — a property is
a scalar or a length-prefixed list with an index type and an element type. -/
inductive PropertyType where
  | Scalar (t : ScalarType)
  | List (indexType : ScalarType) (elemType : ScalarType)
deriving DecidableEq, Repr

/-- Modelled from the spec: `PropertyDef` of `src/ply/mod.rs` — a named
property declaration. -/
structure PropertyDef where
  name : String
  data_type : PropertyType
deriving DecidableEq, Repr

/-- Modelled from the spec: equality of `PropertyDef` as used by
`Vec::contains` in the header assembler.  The spec (§3) fixes
"Equality/identity by name within an element", so two `PropertyDef`s compare
equal iff their names coincide. -/
def propertyDefEqByName (a b : PropertyDef) : Bool :=
  a.name == b.name

/-- Modelled from the spec: `ElementDef` of `src/ply/mod.rs` — a declared
element with its declared cardinality and ordered property declarations. -/
structure ElementDef where
  name : String
  count : Nat
  properties : List PropertyDef
deriving DecidableEq, Repr

/-- Modelled from the spec: `Version` of `src/ply/mod.rs`. -/
structure Version where
  major : Nat
  minor : Nat
deriving DecidableEq, Repr

/-- Modelled from the spec: `Encoding` of `src/ply/mod.rs`. -/
inductive Encoding where
  | Ascii | BinaryBigEndian | BinaryLittleEndian
deriving DecidableEq, Repr

/-- Modelled from the spec: `Header` of `src/ply/mod.rs`. -/
structure Header where
  encoding : Encoding
  version : Version
  obj_infos : List String
  comments : List String
  elements : List ElementDef
deriving DecidableEq, Repr

/-- Modelled from the spec: the decoded `Property` value of `src/ply/mod.rs` —
eight scalar variants plus eight list variants.  Signed machine integers are
embedded as `Int`, unsigned ones as `Nat`; the IEEE `f32`/`f64` payloads are
embedded by their bit patterns (`Nat` below `2^32` resp. `2^64`), which is
exact for the binary wire format. -/
inductive Property where
  | Char (v : Int)
  | UChar (v : Nat)
  | Short (v : Int)
  | UShort (v : Nat)
  | Int (v : Int)
  | UInt (v : Nat)
  | Float (bits : Nat)
  | Double (bits : Nat)
  | ListChar (v : List Int)
  | ListUChar (v : List Nat)
  | ListShort (v : List Int)
  | ListUShort (v : List Nat)
  | ListInt (v : List Int)
  | ListUInt (v : List Nat)
  | ListFloat (bits : List Nat)
  | ListDouble (bits : List Nat)
deriving DecidableEq, Repr

/-- Modelled from the spec: the generic element representation
(`DefaultElement` of `src/ply/mod.rs`), a name → `Property` linked map,
embedded as an insertion-ordered association list. -/
abbrev Elem : Type := List (String × Property)

/-- Modelled from the spec: `LinkedHashMap::insert` — replace the value in
place when the key is present, append otherwise. -/
def lhmInsert {α : Type} (k : String) (v : α) : List (String × α) → List (String × α)
  | [] => [(k, v)]
  | (k', v') :: rest =>
    if k' = k then (k, v) :: rest else (k', v') :: lhmInsert k v rest

/-- Modelled from the spec: `LinkedHashMap::contains_key`. -/
def lhmContains {α : Type} (k : String) (m : List (String × α)) : Bool :=
  m.any (fun p => p.1 == k)

/-- Modelled from the spec: `LinkedHashMap` lookup. -/
def lhmGet {α : Type} (k : String) : List (String × α) → Option α
  | [] => none
  | (k', v) :: rest => if k' = k then some v else lhmGet k rest

/-- Modelled from the spec: `DefaultElement::new` — the fresh empty element. -/
def Elem.new : Elem := []

/-- Modelled from the spec: `DefaultElement::set_property`. -/
def Elem.set_property (e : Elem) (k : String) (v : Property) : Elem :=
  lhmInsert k v e

/-- Modelled from the spec: `Payload` of `src/ply/mod.rs`, a name → element
sequence linked map, embedded as an insertion-ordered association list. -/
abbrev Payload : Type := List (String × List Elem)

/-- Modelled from the spec: `Ply` of `src/ply/mod.rs`. -/
structure Ply where
  header : Header
  payload : Payload
deriving DecidableEq

/-! ## Consistency normalizer (`src/ply/consistency.rs`) -/

/-- `has_white_space` from `src/ply/consistency.rs`. -/
def has_white_space (s : String) : Bool :=
  s.data.any (fun c => c == ' ' || c == '\t')

/-- `has_line_break` from `src/ply/consistency.rs`. -/
def has_line_break (s : String) : Bool :=
  s.data.any (fun c => c == '\n' || c == '\r')

/-- Step 1 of `make_consistent`: for every declared element with no payload
entry, insert an empty sequence (lines 65–69 of `src/ply/consistency.rs`). -/
def insertMissing : List ElementDef → Payload → Payload
  | [], pay => pay
  | e :: rest, pay =>
    insertMissing rest (if lhmContains e.name pay then pay else pay ++ [(e.name, [])])

/-- Helper for step 2 of `make_consistent`: the effect of
`self.header.elements.iter_mut().find(|x| x.name == *pk)` followed by
`ed.unwrap().count = pe.len()` — set the count of the first element with the
given name. -/
def setCountFirst (n : String) (k : Nat) : List ElementDef → List ElementDef
  | [] => []
  | e :: rest =>
    if e.name = n then { e with count := k } :: rest else e :: setCountFirst n k rest

/-- Step 2 of `make_consistent` (lines 70–82 of `src/ply/consistency.rs`):
iterate over the payload entries; an empty key or a key with no matching
element declaration is an error; otherwise overwrite the count of the first
matching element declaration with the entry's length.  The element list
holding all mutations performed so far is returned alongside the outcome,
mirroring the in-place mutation of the Rust code. -/
def updateCounts : List (String × List Elem) → List ElementDef →
    Option String × List ElementDef
  | [], elems => (none, elems)
  | (pk, pe) :: rest, elems =>
    if pk = "" then (some "Element cannot have empty name.", elems)
    else if elems.any (fun x => x.name == pk) then
      updateCounts rest (setCountFirst pk pe.length elems)
    else (some ("No decleration for element `" ++ pk ++ "` found."), elems)

/-- Step 3 of `make_consistent`: first line-break violation among the
obj_infos (lines 83–90 of `src/ply/consistency.rs`). -/
def checkObjInfos : List String → Option String
  | [] => none
  | oi :: rest =>
    if has_line_break oi then
      some ("Objection information `" ++ oi ++ "` should not contain any line breaks.")
    else checkObjInfos rest

/-- Step 4 of `make_consistent`: first line-break violation among the
comments (lines 91–98 of `src/ply/consistency.rs`). -/
def checkComments : List String → Option String
  | [] => none
  | c :: rest =>
    if has_line_break c then
      some ("Comment `" ++ c ++ "` should not contain any line breaks.")
    else checkComments rest

/-- Inner loop of step 5 of `make_consistent`: first violation among the
property names of one element (lines 112–125 of `src/ply/consistency.rs`). -/
def checkProps (ename : String) : List PropertyDef → Option String
  | [] => none
  | d :: rest =>
    if has_line_break d.name then
      some ("Name of property `" ++ d.name ++ "` of element `" ++ ename ++
        "` should not contain any line breaks.")
    else if has_white_space d.name then
      some ("Name of property `" ++ d.name ++ "` of element `" ++ ename ++
        "` should not contain any spaces.")
    else checkProps ename rest

/-- Step 5 of `make_consistent`: first violation among the element names and
their property names (lines 99–126 of `src/ply/consistency.rs`). -/
def checkElements : List ElementDef → Option String
  | [] => none
  | e :: rest =>
    if has_line_break e.name then
      some ("Name of element `" ++ e.name ++ "` should not contain any line breaks.")
    else if has_white_space e.name then
      some ("Name of element `" ++ e.name ++ "` should not contain any white spaces.")
    else
      match checkProps e.name e.properties with
      | some err => some err
      | none => checkElements rest

/-- The validation part of `make_consistent` (steps 3–5), which mutates
nothing. -/
def checksAll (h : Header) : Option String :=
  match checkObjInfos h.obj_infos with
  | some e => some e
  | none =>
    match checkComments h.comments with
    | some e => some e
    | none => checkElements h.elements

/-- Steps 1–2 of `make_consistent`: the only mutating part.  Returns the
outcome of step 2 together with the `Ply` exactly as steps 1–2 left it. -/
def step12 (p : Ply) : Option String × Ply :=
  let pay1 := insertMissing p.header.elements p.payload
  let uc := updateCounts pay1 p.header.elements
  (uc.1, ⟨{ p.header with elements := uc.2 }, pay1⟩)

/-- `make_consistent` from `src/ply/consistency.rs`: the mutating steps 1–2
followed by the pure validation steps 3–5.  The final `Ply` state is returned
alongside the outcome, mirroring `&mut self`. -/
def makeConsistent (p : Ply) : Option String × Ply :=
  match step12 p with
  | (some e, q) => (some e, q)
  | (none, q) => (checksAll q.header, q)

/-! ## Lemmas about the consistency normalizer -/

theorem setCountFirst_shape (n : String) (k : Nat) (es : List ElementDef) :
    (setCountFirst n k es).map (fun e => (e.name, e.properties)) =
      es.map (fun e => (e.name, e.properties)) := by
  induction es with
  | nil => rfl
  | cons e rest ih => by_cases h : e.name = n <;> simp [setCountFirst, h, ih]

theorem setCountFirst_any (n m : String) (k : Nat) (es : List ElementDef) :
    (setCountFirst n k es).any (fun x => x.name == m) =
      es.any (fun x => x.name == m) := by
  induction es with
  | nil => rfl
  | cons e rest ih => by_cases h : e.name = n <;> simp [setCountFirst, h, ih]

theorem setCountFirst_id (n : String) (k : Nat) (es : List ElementDef) (e : ElementDef)
    (hf : es.find? (fun x => x.name == n) = some e) (hk : e.count = k) :
    setCountFirst n k es = es := by
  induction es with
  | nil => simp at hf
  | cons e0 rest ih =>
    by_cases h : e0.name = n
    · rw [List.find?_cons_of_pos _ (by simp [h])] at hf
      obtain rfl : e0 = e := by injection hf
      subst hk
      simp only [setCountFirst, if_pos h]
    · rw [List.find?_cons_of_neg _ (by simp [h])] at hf
      simp [setCountFirst, h, ih hf]

theorem setCountFirst_find_other (n m : String) (k : Nat) (es : List ElementDef)
    (hnm : m ≠ n) :
    (setCountFirst n k es).find? (fun x => x.name == m) =
      es.find? (fun x => x.name == m) := by
  induction es with
  | nil => rfl
  | cons e rest ih =>
    by_cases h : e.name = n
    · have hm : (e.name == m) = false := by
        simp only [beq_eq_false_iff_ne, ne_eq, h]
        exact fun hh => hnm hh.symm
      simp only [setCountFirst, if_pos h]
      rw [List.find?_cons_of_neg _ (by simp [hm]), List.find?_cons_of_neg _ (by simp [hm])]
    · simp only [setCountFirst, if_neg h]
      by_cases h2 : e.name = m
      · rw [List.find?_cons_of_pos _ (by simp [h2]), List.find?_cons_of_pos _ (by simp [h2])]
      · rw [List.find?_cons_of_neg _ (by simp [h2]),
          List.find?_cons_of_neg _ (by simp [h2]), ih]

theorem setCountFirst_find_self (n : String) (k : Nat) (es : List ElementDef)
    (h : es.any (fun x => x.name == n) = true) :
    ∃ e, es.find? (fun x => x.name == n) = some e ∧
      (setCountFirst n k es).find? (fun x => x.name == n) = some { e with count := k } := by
  induction es with
  | nil => simp at h
  | cons e0 rest ih =>
    by_cases he : e0.name = n
    · refine ⟨e0, List.find?_cons_of_pos _ (by simp [he]), ?_⟩
      simp only [setCountFirst, if_pos he]
      exact List.find?_cons_of_pos _ (by simp [he])
    · have h' : rest.any (fun x => x.name == n) = true := by
        simp only [List.any_cons, Bool.or_eq_true] at h
        rcases h with h | h
        · exact absurd (by simpa using h) he
        · exact h
      obtain ⟨e, hf, hm⟩ := ih h'
      refine ⟨e, ?_, ?_⟩
      · rw [List.find?_cons_of_neg _ (by simp [he])]
        exact hf
      · simp only [setCountFirst, if_neg he]
        rw [List.find?_cons_of_neg _ (by simp [he])]
        exact hm

theorem updateCounts_shape (entries : List (String × List Elem)) (elems : List ElementDef) :
    ((updateCounts entries elems).2).map (fun e => (e.name, e.properties)) =
      elems.map (fun e => (e.name, e.properties)) := by
  induction entries generalizing elems with
  | nil => rfl
  | cons pr rest ih =>
    obtain ⟨pk, pe⟩ := pr
    by_cases h1 : pk = ""
    · simp [updateCounts, h1]
    · by_cases h2 : elems.any (fun x => x.name == pk)
      · simp [updateCounts, h1, h2, ih, setCountFirst_shape]
      · simp [updateCounts, h1, h2]

theorem updateCounts_empty_key (entries : List (String × List Elem))
    (elems : List ElementDef) (h : lhmContains "" entries = true) :
    ((updateCounts entries elems).1).isSome = true := by
  induction entries generalizing elems with
  | nil => simp [lhmContains] at h
  | cons pr rest ih =>
    obtain ⟨pk, pe⟩ := pr
    by_cases h1 : pk = ""
    · simp [updateCounts, h1]
    · have hr : lhmContains "" rest = true := by
        simp only [lhmContains, List.any_cons, Bool.or_eq_true] at h
        rcases h with h | h
        · exact absurd (by simpa using h) h1
        · exact h
      by_cases h2 : elems.any (fun x => x.name == pk)
      · simpa [updateCounts, h1, h2] using ih _ hr
      · simp [updateCounts, h1, h2]

theorem updateCounts_keys_ok (entries : List (String × List Elem))
    (elems elems' : List ElementDef) (h : updateCounts entries elems = (none, elems')) :
    ∀ pr ∈ entries, pr.1 ≠ "" ∧ elems.any (fun x => x.name == pr.1) = true := by
  induction entries generalizing elems with
  | nil => simp
  | cons pr0 rest ih =>
    obtain ⟨pk, pe⟩ := pr0
    by_cases h1 : pk = ""
    · simp [updateCounts, h1] at h
    · by_cases h2 : elems.any (fun x => x.name == pk)
      · simp only [updateCounts, if_neg h1, h2, if_pos] at h
        intro pr hpr
        rcases List.mem_cons.mp hpr with rfl | hmem
        · exact ⟨h1, h2⟩
        · obtain ⟨ha, hb⟩ := ih _ h pr hmem
          exact ⟨ha, by rw [← setCountFirst_any pk pr.1 pe.length elems]; exact hb⟩
      · simp [updateCounts, h1, h2] at h

theorem updateCounts_find_other (entries : List (String × List Elem))
    (elems elems' : List ElementDef) (n : String)
    (h : updateCounts entries elems = (none, elems'))
    (hk : ∀ pr ∈ entries, pr.1 ≠ n) :
    elems'.find? (fun x => x.name == n) = elems.find? (fun x => x.name == n) := by
  induction entries generalizing elems with
  | nil =>
    simp only [updateCounts, Prod.mk.injEq] at h
    rw [h.2]
  | cons pr0 rest ih =>
    obtain ⟨pk, pe⟩ := pr0
    by_cases h1 : pk = ""
    · simp [updateCounts, h1] at h
    · by_cases h2 : elems.any (fun x => x.name == pk)
      · simp only [updateCounts, if_neg h1, h2, if_pos] at h
        have hpk : n ≠ pk := fun hn => hk (pk, pe) (List.mem_cons_self _ _) (by simp [hn])
        rw [ih _ h (fun pr hpr => hk pr (List.mem_cons_of_mem _ hpr)),
          setCountFirst_find_other pk n pe.length elems hpk]
      · simp [updateCounts, h1, h2] at h

theorem updateCounts_counts (entries : List (String × List Elem))
    (elems elems' : List ElementDef) (hnd : (entries.map Prod.fst).Nodup)
    (h : updateCounts entries elems = (none, elems')) :
    ∀ pr ∈ entries, ∃ e, elems'.find? (fun x => x.name == pr.1) = some e ∧
      e.count = pr.2.length := by
  induction entries generalizing elems with
  | nil => simp
  | cons pr0 rest ih =>
    obtain ⟨pk, pe⟩ := pr0
    by_cases h1 : pk = ""
    · simp [updateCounts, h1] at h
    · by_cases h2 : elems.any (fun x => x.name == pk)
      · simp only [updateCounts, if_neg h1, h2, if_pos] at h
        intro pr hpr
        rcases List.mem_cons.mp hpr with rfl | hmem
        · obtain ⟨e, _, hm⟩ := setCountFirst_find_self pk pe.length elems h2
          refine ⟨{ e with count := pe.length }, ?_, rfl⟩
          rw [updateCounts_find_other rest _ elems' pk h ?_]
          · exact hm
          · have hnd2 : pk ∉ rest.map Prod.fst := by
              rw [List.map_cons, List.nodup_cons] at hnd
              exact hnd.1
            intro pr2 hpr2 heq
            exact hnd2 (heq ▸ List.mem_map_of_mem Prod.fst hpr2)
        · have hnd2 : (rest.map Prod.fst).Nodup := by
            rw [List.map_cons, List.nodup_cons] at hnd
            exact hnd.2
          exact ih _ hnd2 h pr hmem
      · simp [updateCounts, h1, h2] at h

theorem updateCounts_id (entries : List (String × List Elem)) (elems : List ElementDef)
    (hok : ∀ pr ∈ entries, pr.1 ≠ "" ∧ ∃ e,
      elems.find? (fun x => x.name == pr.1) = some e ∧ e.count = pr.2.length) :
    updateCounts entries elems = (none, elems) := by
  induction entries with
  | nil => rfl
  | cons pr0 rest ih =>
    obtain ⟨pk, pe⟩ := pr0
    obtain ⟨h1, e, hf, hc⟩ := hok (pk, pe) (List.mem_cons_self _ _)
    have hp := List.find?_some hf
    have h2 : elems.any (fun x => x.name == pk) = true := by
      refine List.any_eq_true.mpr ⟨e, List.mem_of_find?_eq_some hf, ?_⟩
      simpa using hp
    have hid : setCountFirst pk pe.length elems = elems := setCountFirst_id _ _ _ e hf hc
    simp only [updateCounts, if_neg h1, h2, if_pos, hid]
    exact ih (fun pr hpr => hok pr (List.mem_cons_of_mem _ hpr))

theorem lhmContains_append_left {α : Type} (n : String) (pay q : List (String × α))
    (h : lhmContains n pay = true) : lhmContains n (pay ++ q) = true := by
  simp only [lhmContains, List.any_append, Bool.or_eq_true]
  exact Or.inl h

theorem insertMissing_mem (es : List ElementDef) (pay : Payload) (pr : String × List Elem)
    (h : pr ∈ pay) : pr ∈ insertMissing es pay := by
  induction es generalizing pay with
  | nil => exact h
  | cons e rest ih =>
    simp only [insertMissing]
    by_cases hc : lhmContains e.name pay = true
    · simp only [hc, if_pos]
      exact ih pay h
    · simp only [hc, ite_false, Bool.false_eq_true]
      exact ih _ (List.mem_append_left _ h)

theorem insertMissing_contains_mono (es : List ElementDef) (pay : Payload) (n : String)
    (h : lhmContains n pay = true) : lhmContains n (insertMissing es pay) = true := by
  induction es generalizing pay with
  | nil => exact h
  | cons e rest ih =>
    simp only [insertMissing]
    by_cases hc : lhmContains e.name pay = true
    · simp only [hc, if_pos]
      exact ih pay h
    · simp only [hc, ite_false, Bool.false_eq_true]
      exact ih _ (lhmContains_append_left n pay _ h)

theorem insertMissing_contains_all (es : List ElementDef) (pay : Payload) :
    ∀ e ∈ es, lhmContains e.name (insertMissing es pay) = true := by
  induction es generalizing pay with
  | nil => simp
  | cons e0 rest ih =>
    intro e he
    rcases List.mem_cons.mp he with rfl | hmem
    · simp only [insertMissing]
      by_cases hc : lhmContains e.name pay = true
      · simp only [hc, if_pos]
        exact insertMissing_contains_mono _ _ _ hc
      · simp only [hc, ite_false, Bool.false_eq_true]
        refine insertMissing_contains_mono _ _ _ ?_
        simp [lhmContains]
    · simp only [insertMissing]
      by_cases hc : lhmContains e0.name pay = true <;> simp only [hc, if_pos, ite_false,
        Bool.false_eq_true] <;> exact ih _ e hmem

theorem insertMissing_nodup (es : List ElementDef) (pay : Payload)
    (h : (pay.map Prod.fst).Nodup) : ((insertMissing es pay).map Prod.fst).Nodup := by
  induction es generalizing pay with
  | nil => exact h
  | cons e rest ih =>
    simp only [insertMissing]
    by_cases hc : lhmContains e.name pay = true
    · simp only [hc, if_pos]
      exact ih pay h
    · simp only [hc, ite_false, Bool.false_eq_true]
      refine ih _ ?_
      rw [List.map_append]
      refine List.Nodup.append h (List.nodup_singleton _) ?_
      intro a ha hb
      simp only [List.map_cons, List.map_nil, List.mem_singleton] at hb
      subst hb
      obtain ⟨pr, hpr, hfst⟩ := List.mem_map.mp ha
      refine absurd ?_ (fun hx => hc hx)
      simp only [lhmContains, List.any_eq_true]
      exact ⟨pr, hpr, by simp [hfst]⟩

theorem insertMissing_new_entry (es : List ElementDef) (pay : Payload) (e : ElementDef)
    (he : e ∈ es) (hc : lhmContains e.name pay = false) :
    (e.name, ([] : List Elem)) ∈ insertMissing es pay := by
  induction es generalizing pay with
  | nil => simp at he
  | cons e0 rest ih =>
    simp only [insertMissing]
    by_cases hc0 : lhmContains e0.name pay = true
    · simp only [hc0, if_pos]
      rcases List.mem_cons.mp he with rfl | hmem
      · rw [hc] at hc0
        exact absurd hc0 (by simp)
      · exact ih pay hmem hc
    · simp only [hc0, ite_false, Bool.false_eq_true]
      by_cases hname : e0.name = e.name
      · exact insertMissing_mem _ _ _ (by simp [hname])
      · rcases List.mem_cons.mp he with rfl | hmem
        · exact absurd rfl hname
        · refine ih _ hmem ?_
          simp only [lhmContains, List.any_append, Bool.or_eq_false_iff]
          refine ⟨by simpa [lhmContains] using hc, ?_⟩
          simp [hname]

theorem insertMissing_id (es : List ElementDef) (pay : Payload)
    (h : ∀ e ∈ es, lhmContains e.name pay = true) : insertMissing es pay = pay := by
  induction es with
  | nil => rfl
  | cons e rest ih =>
    simp only [insertMissing, h e (List.mem_cons_self _ _), if_pos]
    exact ih (fun e' he' => h e' (List.mem_cons_of_mem _ he'))

theorem lhmGet_mem_nodup {α : Type} (m : List (String × α)) (n : String) (v : α)
    (hnd : (m.map Prod.fst).Nodup) (hmem : (n, v) ∈ m) : lhmGet n m = some v := by
  induction m with
  | nil => simp at hmem
  | cons pr rest ih =>
    obtain ⟨k, w⟩ := pr
    rw [List.map_cons, List.nodup_cons] at hnd
    rcases List.mem_cons.mp hmem with heq | hmem2
    · injection heq with h1 h2
      subst h1
      subst h2
      simp [lhmGet]
    · have hk : ¬ k = n := by
        intro hkn
        refine hnd.1 ?_
        rw [hkn]
        simpa using List.mem_map_of_mem Prod.fst hmem2
      simp only [lhmGet, hk, ite_false]
      exact ih hnd.2 hmem2

theorem checkObjInfos_complete (ois : List String) (oi : String)
    (hmem : oi ∈ ois) (hb : has_line_break oi = true) :
    (checkObjInfos ois).isSome = true := by
  induction ois with
  | nil => simp at hmem
  | cons o rest ih =>
    rcases List.mem_cons.mp hmem with rfl | hmem2
    · simp [checkObjInfos, hb]
    · simp only [checkObjInfos]
      by_cases hbo : has_line_break o = true
      · simp [hbo]
      · simp only [hbo, ite_false, Bool.false_eq_true]
        exact ih hmem2

theorem checkComments_complete (cs : List String) (c : String)
    (hmem : c ∈ cs) (hb : has_line_break c = true) :
    (checkComments cs).isSome = true := by
  induction cs with
  | nil => simp at hmem
  | cons c0 rest ih =>
    rcases List.mem_cons.mp hmem with rfl | hmem2
    · simp [checkComments, hb]
    · simp only [checkComments]
      by_cases hbo : has_line_break c0 = true
      · simp [hbo]
      · simp only [hbo, ite_false, Bool.false_eq_true]
        exact ih hmem2

theorem checkProps_complete (en : String) (ds : List PropertyDef) (d : PropertyDef)
    (hmem : d ∈ ds) (hb : has_line_break d.name = true ∨ has_white_space d.name = true) :
    (checkProps en ds).isSome = true := by
  induction ds with
  | nil => simp at hmem
  | cons d0 rest ih =>
    simp only [checkProps]
    by_cases h1 : has_line_break d0.name = true
    · simp [h1]
    · by_cases h2 : has_white_space d0.name = true
      · simp [h1, h2]
      · simp only [h1, h2, ite_false, Bool.false_eq_true]
        rcases List.mem_cons.mp hmem with rfl | hmem2
        · rcases hb with hb | hb
          · exact absurd hb h1
          · exact absurd hb h2
        · exact ih hmem2

theorem checkElements_complete (es : List ElementDef) (e : ElementDef) (hmem : e ∈ es)
    (hb : has_line_break e.name = true ∨ has_white_space e.name = true ∨
      ∃ d ∈ e.properties, has_line_break d.name = true ∨ has_white_space d.name = true) :
    (checkElements es).isSome = true := by
  induction es with
  | nil => simp at hmem
  | cons e0 rest ih =>
    simp only [checkElements]
    by_cases h1 : has_line_break e0.name = true
    · simp [h1]
    · by_cases h2 : has_white_space e0.name = true
      · simp [h1, h2]
      · simp only [h1, h2, ite_false, Bool.false_eq_true]
        rcases List.mem_cons.mp hmem with rfl | hmem2
        · rcases hb with hb | hb | ⟨d, hd, hbd⟩
          · exact absurd hb h1
          · exact absurd hb h2
          · have := checkProps_complete e.name e.properties d hd hbd
            rcases hcp : checkProps e.name e.properties with _ | err
            · rw [hcp] at this
              simp at this
            · simp [hcp]
        · rcases hcp : checkProps e0.name e0.properties with _ | err
          · simp only [hcp]
            exact ih hmem2
          · simp [hcp]

theorem shape_mem {es es' : List ElementDef}
    (h : es'.map (fun e => (e.name, e.properties)) = es.map (fun e => (e.name, e.properties)))
    {e : ElementDef} (he : e ∈ es) :
    ∃ e' ∈ es', e'.name = e.name ∧ e'.properties = e.properties := by
  have hm : (e.name, e.properties) ∈ es'.map (fun e => (e.name, e.properties)) := by
    rw [h]
    exact List.mem_map_of_mem _ he
  obtain ⟨e', he', heq⟩ := List.mem_map.mp hm
  injection heq with h1 h2
  exact ⟨e', he', h1, h2⟩

theorem step12_eq (p : Ply) :
    step12 p = ((updateCounts (insertMissing p.header.elements p.payload) p.header.elements).1,
      ⟨{ p.header with elements :=
          (updateCounts (insertMissing p.header.elements p.payload) p.header.elements).2 },
        insertMissing p.header.elements p.payload⟩) := rfl

theorem makeConsistent_ok (p q : Ply) (h : makeConsistent p = (none, q)) :
    step12 p = (none, q) ∧ checksAll q.header = none := by
  rcases hs : step12 p with ⟨r, q'⟩
  cases r with
  | some e => simp [makeConsistent, hs] at h
  | none =>
    simp only [makeConsistent, hs] at h
    rw [Prod.mk.injEq] at h
    obtain ⟨h1, h2⟩ := h
    subst h2
    exact ⟨rfl, h1⟩

theorem checksAll_isSome_obj (h : Header)
    (hh : (checkObjInfos h.obj_infos).isSome = true) : (checksAll h).isSome = true := by
  rcases hco : checkObjInfos h.obj_infos with _ | e
  · rw [hco] at hh
    simp at hh
  · simp [checksAll, hco]

theorem checksAll_isSome_comments (h : Header)
    (hh : (checkComments h.comments).isSome = true) : (checksAll h).isSome = true := by
  rcases hco : checkObjInfos h.obj_infos with _ | e
  · rcases hcc : checkComments h.comments with _ | e
    · rw [hcc] at hh
      simp at hh
    · simp [checksAll, hco, hcc]
  · simp [checksAll, hco]

theorem checksAll_isSome_elements (h : Header)
    (hh : (checkElements h.elements).isSome = true) : (checksAll h).isSome = true := by
  rcases hco : checkObjInfos h.obj_infos with _ | e
  · rcases hcc : checkComments h.comments with _ | e
    · simpa [checksAll, hco, hcc] using hh
    · simp [checksAll, hco, hcc]
  · simp [checksAll, hco]

/-- A `Ply` holding at least one string that violates the validation rules of
steps 3–5 of `make_consistent`: a comment or obj_info with a line break, or an
element/property name with a line break or whitespace. -/
def badPly (p : Ply) : Prop :=
  (∃ oi ∈ p.header.obj_infos, has_line_break oi = true) ∨
  (∃ c ∈ p.header.comments, has_line_break c = true) ∨
  (∃ e ∈ p.header.elements, has_line_break e.name = true ∨ has_white_space e.name = true ∨
    ∃ d ∈ e.properties, has_line_break d.name = true ∨ has_white_space d.name = true)

/-- **Claim C7.** `make_consistent` fails whenever any comment or obj_info
contains `\n` or `\r`, whenever any element or property name contains `\n` or
`\r`, and whenever any element or property name contains a space or tab; and
the validation steps 3–5 perform no mutation: the final `Ply` state always
equals the state steps 1–2 left behind. -/
theorem claim_C7 (p : Ply) :
    (badPly p → ((makeConsistent p).1).isSome = true) ∧
    (makeConsistent p).2 = (step12 p).2 := by
  rcases huc : updateCounts (insertMissing p.header.elements p.payload) p.header.elements
    with ⟨r, elems'⟩
  have hs : step12 p = (r, ⟨{ p.header with elements := elems' }, insertMissing
      p.header.elements p.payload⟩) := by
    rw [step12_eq, huc]
  have hshape : elems'.map (fun e => (e.name, e.properties)) =
      p.header.elements.map (fun e => (e.name, e.properties)) := by
    have := updateCounts_shape (insertMissing p.header.elements p.payload) p.header.elements
    rwa [huc] at this
  cases r with
  | some e => simp [makeConsistent, hs]
  | none =>
    simp only [makeConsistent, hs]
    refine ⟨?_, trivial⟩
    intro hbad
    rcases hbad with ⟨oi, hoi, hb⟩ | ⟨c, hc, hb⟩ | ⟨e, he, hb⟩
    · exact checksAll_isSome_obj _ (checkObjInfos_complete _ oi hoi hb)
    · exact checksAll_isSome_comments _ (checkComments_complete _ c hc hb)
    · obtain ⟨e', he', hname, hprops⟩ := shape_mem hshape he
      refine checksAll_isSome_elements _ (checkElements_complete _ e' he' ?_)
      rw [hname, hprops]
      exact hb

/-- Concrete input for the C7 witness: one comment holding a line break. -/
def plyBadComment : Ply :=
  ⟨⟨Encoding.Ascii, ⟨1, 0⟩, [], ["bad\ncomment"], []⟩, []⟩

/-- Witness for C7 at a concrete input. -/
theorem claim_C7_witness : ((makeConsistent plyBadComment).1).isSome = true := by
  refine (claim_C7 plyBadComment).1 (Or.inr (Or.inl ⟨"bad\ncomment", ?_, ?_⟩))
  · simp [plyBadComment]
  · decide

/-- **Claim C10.** If the payload, after step 1 has inserted entries for all
declared elements, contains an entry keyed by the empty string, then
`make_consistent` returns an error. -/
theorem claim_C10 (p : Ply)
    (h : lhmContains "" (insertMissing p.header.elements p.payload) = true) :
    ((makeConsistent p).1).isSome = true := by
  have hsome := updateCounts_empty_key (insertMissing p.header.elements p.payload)
    p.header.elements h
  rcases huc : updateCounts (insertMissing p.header.elements p.payload) p.header.elements
    with ⟨r, elems'⟩
  rw [huc] at hsome
  have hs : step12 p = (r, ⟨{ p.header with elements := elems' }, insertMissing
      p.header.elements p.payload⟩) := by
    rw [step12_eq, huc]
  cases r with
  | none => simp at hsome
  | some e => simp [makeConsistent, hs]

/-- Concrete input for the C10 witness: a payload entry with an empty name. -/
def plyEmptyName : Ply :=
  ⟨⟨Encoding.Ascii, ⟨1, 0⟩, [], [], []⟩, [("", [])]⟩

/-- Witness for C10 at a concrete input. -/
theorem claim_C10_witness : ((makeConsistent plyEmptyName).1).isSome = true :=
  claim_C10 plyEmptyName (by decide)

theorem makeConsistent_ok_parts (p q : Ply) (h : makeConsistent p = (none, q)) :
    updateCounts (insertMissing p.header.elements p.payload) p.header.elements =
      (none, q.header.elements) ∧
    q.payload = insertMissing p.header.elements p.payload ∧
    checksAll q.header = none := by
  obtain ⟨hs, hchecks⟩ := makeConsistent_ok p q h
  rcases huc : updateCounts (insertMissing p.header.elements p.payload) p.header.elements
    with ⟨r, elems'⟩
  rw [step12_eq, huc] at hs
  rw [Prod.mk.injEq] at hs
  obtain ⟨hr, hq⟩ := hs
  subst hr
  refine ⟨?_, ?_, hchecks⟩
  · rw [← hq]
  · rw [← hq]

/-- **Claim C5 (amended).**  Provided `make_consistent` succeeds (with
distinct payload keys, as the `LinkedHashMap` payload type guarantees): for
every declared element with no payload entry an empty sequence is inserted
under its name, and the first declared element with that name ends with count
0; and for every payload entry of length `k` the first declared element with
the matching name ends with count `k`. -/
theorem claim_C5 (p q : Ply) (hnodup : (p.payload.map Prod.fst).Nodup)
    (h : makeConsistent p = (none, q)) :
    (∀ e ∈ p.header.elements, lhmContains e.name p.payload = false →
      lhmGet e.name q.payload = some [] ∧
      ∃ e', q.header.elements.find? (fun x => x.name == e.name) = some e' ∧
        e'.count = 0) ∧
    (∀ pr ∈ p.payload, ∃ e',
      q.header.elements.find? (fun x => x.name == pr.1) = some e' ∧
      e'.count = pr.2.length) := by
  obtain ⟨huc, hpay, _⟩ := makeConsistent_ok_parts p q h
  have hnd1 : ((insertMissing p.header.elements p.payload).map Prod.fst).Nodup :=
    insertMissing_nodup _ _ hnodup
  have hcounts := updateCounts_counts _ _ _ hnd1 huc
  constructor
  · intro e he hcon
    have hmem : (e.name, ([] : List Elem)) ∈ insertMissing p.header.elements p.payload :=
      insertMissing_new_entry _ _ e he hcon
    refine ⟨?_, ?_⟩
    · rw [hpay]
      exact lhmGet_mem_nodup _ _ _ hnd1 hmem
    · simpa using hcounts (e.name, []) hmem
  · intro pr hpr
    exact hcounts pr (insertMissing_mem _ _ _ hpr)

/-- Concrete input refuting claim C5 as stated: element `A` is declared with
count 5 and has no payload entry, and the payload holds an entry with an empty
name. -/
def plyC5Bad : Ply := ⟨⟨Encoding.Ascii, ⟨1, 0⟩, [], [], [⟨"A", 5, []⟩]⟩, [("", [])]⟩

/-- Counterexample to claim C5 as stated: on `plyC5Bad`, element `A` has no
payload entry and `make_consistent` does insert the empty sequence for it, yet
`A`'s count ends at 5 (not 0), because the run aborts on the empty-name
payload entry before step 2 reaches `A`. -/
theorem claim_C5_counterexample :
    lhmContains "A" plyC5Bad.payload = false ∧
    (makeConsistent plyC5Bad).2.payload = [("", []), ("A", [])] ∧
    (makeConsistent plyC5Bad).2.header.elements.map ElementDef.count = [5] ∧
    ((makeConsistent plyC5Bad).1).isSome = true := by
  decide

/-- Concrete input for the C5/C6 witnesses: one declared element, no payload
entry. -/
def plyC5 : Ply := ⟨⟨Encoding.Ascii, ⟨1, 0⟩, [], [], [⟨"v", 7, []⟩]⟩, []⟩

/-- The normalized state of `plyC5`. -/
def plyC5Out : Ply := ⟨⟨Encoding.Ascii, ⟨1, 0⟩, [], [], [⟨"v", 0, []⟩]⟩, [("v", [])]⟩

/-- Witness for C5 at a concrete input. -/
theorem claim_C5_witness :
    lhmGet "v" plyC5Out.payload = some [] ∧
    ∃ e', plyC5Out.header.elements.find? (fun x => x.name == "v") = some e' ∧
      e'.count = 0 := by
  have h := (claim_C5 plyC5 plyC5Out (by decide) (by decide)).1
    ⟨"v", 7, []⟩ (by simp [plyC5]) (by decide)
  exact h

/-- **Claim C6.** `make_consistent` is idempotent: if it succeeds on `p`,
producing state `q` (payload keys being distinct, as the `LinkedHashMap`
payload type guarantees), then a second call on `q` also succeeds and leaves
`q` unchanged. -/
theorem claim_C6 (p q : Ply) (hnodup : (p.payload.map Prod.fst).Nodup)
    (h : makeConsistent p = (none, q)) : makeConsistent q = (none, q) := by
  obtain ⟨huc, hpay, hchecks⟩ := makeConsistent_ok_parts p q h
  have hnd1 : ((insertMissing p.header.elements p.payload).map Prod.fst).Nodup :=
    insertMissing_nodup _ _ hnodup
  have hcounts := updateCounts_counts _ _ _ hnd1 huc
  have hkeys := updateCounts_keys_ok _ _ _ huc
  have hshape : q.header.elements.map (fun e => (e.name, e.properties)) =
      p.header.elements.map (fun e => (e.name, e.properties)) := by
    have := updateCounts_shape (insertMissing p.header.elements p.payload) p.header.elements
    rw [huc] at this
    exact this
  have hins : insertMissing q.header.elements q.payload = q.payload := by
    refine insertMissing_id _ _ ?_
    intro e he
    obtain ⟨e0, he0, hname, _⟩ := shape_mem hshape.symm he
    rw [hpay, ← hname]
    exact insertMissing_contains_all p.header.elements p.payload e0 he0
  have hupd : updateCounts q.payload q.header.elements = (none, q.header.elements) := by
    refine updateCounts_id _ _ ?_
    intro pr hpr
    rw [hpay] at hpr
    exact ⟨(hkeys pr hpr).1, hcounts pr hpr⟩
  have hstep : step12 q = (none, q) := by
    rw [step12_eq, hins, hupd]
  simp [makeConsistent, hstep, hchecks]

/-- Witness for C6 at a concrete input. -/
theorem claim_C6_witness : makeConsistent plyC5Out = (none, plyC5Out) :=
  claim_C6 plyC5 plyC5Out (by decide) (by decide)

/-! ## Header assembler (`__read_header` in `src/parser/mod.rs`) -/

/-- Modelled from the spec: the `Line` type of `src/parser/ply_grammar.rs` —
the tagged statements the header line grammar can produce (spec §4.2).  An
element line carries a name and a count and never any properties, exactly as
the grammar builds it. -/
inductive Line where
  | MagicNumber
  | Format (f : Encoding × Version)
  | ObjInfo (o : String)
  | Comment (c : String)
  | Element (name : String) (count : Nat)
  | Property (p : PropertyDef)
  | EndHeader
deriving DecidableEq, Repr

/-- The property-line handling of `__read_header` (lines 272–285 of
`src/parser/mod.rs`): pop the most recently pushed element, append the
property unless `e.properties.contains(&p)` already holds (`PropertyDef`
equality being by name), push the element back. -/
def attachProp (p : PropertyDef) (es : List ElementDef) : List ElementDef :=
  match es.getLast? with
  | none => es
  | some e =>
    es.dropLast ++ [if e.properties.any (fun d => propertyDefEqByName d p) then e
      else { e with properties := e.properties ++ [p] }]

/-- The reading loop of `__read_header` (lines 232–307 of
`src/parser/mod.rs`), embedded at the level of parsed header lines.  The
input list holds the successive results of `grammar::line` on the source's
lines; a line that fails to parse aborts the read without producing a header,
so every header the function returns is produced from successfully parsed
lines.  Running out of input before `end_header` corresponds to the EOF read,
whose empty string fails to parse. -/
def readHeaderLoop : List Line → Option (Encoding × Version) → List String →
    List String → List ElementDef → Except String Header
  | [], _, _, _, _ => .error "Couldn't parse line."
  | l :: rest, form, obj_infos, comments, elements =>
    match l with
    | .MagicNumber => .error "Unexpected 'ply' found."
    | .Format t =>
      match form with
      | none => readHeaderLoop rest (some t) obj_infos comments elements
      | some f =>
        if f = t then readHeaderLoop rest (some f) obj_infos comments elements
        else .error "Found contradicting format definition."
    | .ObjInfo o => readHeaderLoop rest form (obj_infos ++ [o]) comments elements
    | .Comment c => readHeaderLoop rest form obj_infos (comments ++ [c]) elements
    | .Element n k => readHeaderLoop rest form obj_infos comments (elements ++ [⟨n, k, []⟩])
    | .Property p =>
      if elements.isEmpty then .error "Property found without preceding element."
      else readHeaderLoop rest form obj_infos comments (attachProp p elements)
    | .EndHeader =>
      match form with
      | none => .error "No format line found."
      | some f => .ok ⟨f.1, f.2, obj_infos, comments, elements⟩

/-- `__read_header` at the parsed-line level (lines 202–236 of
`src/parser/mod.rs` handle the first line): the first line must parse as the
magic number, then the reading loop runs with empty accumulators. -/
def readHeaderLines : List Line → Except String Header
  | [] => .error "Expected magic number 'ply'."
  | .MagicNumber :: rest => readHeaderLoop rest none [] [] []
  | _ :: _ => .error "Expected magic number 'ply'."

theorem attachProp_nodup (p : PropertyDef) (es : List ElementDef)
    (hinv : ∀ e ∈ es, (e.properties.map PropertyDef.name).Nodup) :
    ∀ e ∈ attachProp p es, (e.properties.map PropertyDef.name).Nodup := by
  intro e he
  unfold attachProp at he
  cases hg : es.getLast? with
  | none =>
    rw [hg] at he
    exact hinv e he
  | some e0 =>
    rw [hg] at he
    rcases List.mem_append.mp he with hd | hsing
    · exact hinv e ((List.dropLast_sublist es).subset hd)
    · have hmem0 : e0 ∈ es := by
        obtain ⟨hne, heq⟩ := List.mem_getLast?_eq_getLast (l := es) (x := e0) (by simp [hg])
        rw [heq]
        exact List.getLast_mem hne
      have h0 := hinv e0 hmem0
      rw [List.mem_singleton] at hsing
      subst hsing
      by_cases hc : e0.properties.any (fun d => propertyDefEqByName d p) = true
      · simpa [hc] using h0
      · simp only [hc, ite_false, Bool.false_eq_true]
        rw [List.map_append, List.map_singleton]
        refine List.Nodup.append h0 (List.nodup_singleton _) ?_
        intro a ha hb
        rw [List.mem_singleton] at hb
        subst hb
        obtain ⟨d, hd, hdn⟩ := List.mem_map.mp ha
        refine hc (List.any_eq_true.mpr ⟨d, hd, ?_⟩)
        simp [propertyDefEqByName, hdn]

theorem readHeaderLoop_nodup (ls : List Line) (form : Option (Encoding × Version))
    (ois cs : List String) (es : List ElementDef)
    (hinv : ∀ e ∈ es, (e.properties.map PropertyDef.name).Nodup)
    (h : Header) (hok : readHeaderLoop ls form ois cs es = .ok h) :
    ∀ e ∈ h.elements, (e.properties.map PropertyDef.name).Nodup := by
  induction ls generalizing form ois cs es with
  | nil => simp [readHeaderLoop] at hok
  | cons l rest ih =>
    cases l with
    | MagicNumber => simp [readHeaderLoop] at hok
    | Format t =>
      cases form with
      | none => exact ih _ _ _ _ hinv hok
      | some f =>
        by_cases hf : f = t
        · rw [readHeaderLoop, if_pos hf] at hok
          exact ih _ _ _ _ hinv hok
        · rw [readHeaderLoop, if_neg hf] at hok
          exact absurd hok (by simp)
    | ObjInfo o => exact ih _ _ _ _ hinv hok
    | Comment c => exact ih _ _ _ _ hinv hok
    | Element n k =>
      refine ih _ _ _ _ ?_ hok
      intro e he
      rcases List.mem_append.mp he with hd | hsing
      · exact hinv e hd
      · rw [List.mem_singleton] at hsing
        subst hsing
        simp
    | Property p =>
      by_cases he : es.isEmpty = true
      · rw [readHeaderLoop, if_pos he] at hok
        exact absurd hok (by simp)
      · rw [readHeaderLoop, if_neg he] at hok
        exact ih _ _ _ _ (attachProp_nodup p es hinv) hok
    | EndHeader =>
      cases form with
      | none => simp [readHeaderLoop] at hok
      | some f =>
        rw [readHeaderLoop] at hok
        obtain rfl : (⟨f.1, f.2, ois, cs, es⟩ : Header) = h := by
          injection hok
        exact hinv

/-- **Claim C1.** Every header returned by the header assembler folds
duplicate property names: for each element of the returned header, the
property-name sequence holds no duplicates, because a property line whose
name already exists on the most recently pushed element is a no-op. -/
theorem claim_C1 (ls : List Line) (h : Header) (hok : readHeaderLines ls = .ok h) :
    ∀ e ∈ h.elements, (e.properties.map PropertyDef.name).Nodup := by
  cases ls with
  | nil => simp [readHeaderLines] at hok
  | cons l rest =>
    cases l with
    | MagicNumber =>
      exact readHeaderLoop_nodup rest none [] [] [] (by simp) h hok
    | Format t => simp [readHeaderLines] at hok
    | ObjInfo o => simp [readHeaderLines] at hok
    | Comment c => simp [readHeaderLines] at hok
    | Element n k => simp [readHeaderLines] at hok
    | Property p => simp [readHeaderLines] at hok
    | EndHeader => simp [readHeaderLines] at hok

/-- Concrete header-line input for the C1 witness: two property lines with
the same name `x` (and even different scalar types) on the same element. -/
def lsC1 : List Line :=
  [.MagicNumber, .Format (Encoding.Ascii, ⟨1, 0⟩), .Element "v" 2,
   .Property ⟨"x", .Scalar .Int⟩, .Property ⟨"x", .Scalar .Float⟩,
   .Property ⟨"y", .Scalar .Int⟩, .EndHeader]

/-- The header the assembler produces for `lsC1`: the duplicate `x` is folded
into the first occurrence. -/
def hdrC1 : Header :=
  ⟨Encoding.Ascii, ⟨1, 0⟩, [], [],
   [⟨"v", 2, [⟨"x", .Scalar .Int⟩, ⟨"y", .Scalar .Int⟩]⟩]⟩

/-- Witness for C1 at a concrete input. -/
theorem claim_C1_witness :
    readHeaderLines lsC1 = .ok hdrC1 ∧
    ∀ e ∈ hdrC1.elements, (e.properties.map PropertyDef.name).Nodup :=
  ⟨by rfl, claim_C1 lsC1 hdrC1 (by rfl)⟩

/-! ## Ascii numeric parsing

The ascii decoder parses tokens with Rust's `FromStr` implementations for the
fixed-width integer types (`src/parser/mod.rs`, `fn parse`): an optional sign
(`+`/`-`; `-` only for signed types), one or more decimal digits, and a range
check for the target width. -/

/-- Decimal evaluation of a digit run (the accumulator loop of Rust's integer
`FromStr`). -/
def parseDigitsAux : List Char → Nat → Option Nat
  | [], acc => some acc
  | c :: cs, acc =>
    if c.isDigit then parseDigitsAux cs (acc * 10 + (c.toNat - '0'.toNat)) else none

/-- One or more decimal digits, evaluated as a natural number. -/
def parseDigits (cs : List Char) : Option Nat :=
  if cs.isEmpty then none else parseDigitsAux cs 0

/-- Rust `FromStr` for an unsigned integer type with maximum `max`
(`u8`/`u16`/`u32`/`usize`): an optional `+`, digits, overflow check. -/
def parseUnsigned (max : Nat) (cs : List Char) : Option Nat :=
  let cs' := match cs with
    | c :: rest => if c = '+' then rest else c :: rest
    | [] => []
  match parseDigits cs' with
  | none => none
  | some n => if n ≤ max then some n else none

/-- Rust `FromStr` for a signed integer type with bounds `[min, max]`
(`i8`/`i16`/`i32`): an optional `+` or `-`, digits, overflow check. -/
def parseSigned (min max : Int) (cs : List Char) : Option Int :=
  match cs with
  | [] => none
  | c :: rest =>
    if c = '-' then
      match parseDigits rest with
      | none => none
      | some n => if min ≤ -(n : Int) then some (-(n : Int)) else none
    else if c = '+' then
      match parseDigits rest with
      | none => none
      | some n => if (n : Int) ≤ max then some (n : Int) else none
    else
      match parseDigits (c :: rest) with
      | none => none
      | some n => if (n : Int) ≤ max then some (n : Int) else none

/-- Modelled from the spec: the text → `f32`/`f64` conversion (Rust's
`FromStr`, outside this repository) used by the ascii decoder for `Float` and
`Double` properties.  The spec's non-goal clause (§1) excludes floating-point
semantics beyond the literal grammar, so the embedding fixes a canonical
bijection between a float value's bit pattern and one decimal token: the
token holding the decimal numeral of the pattern denotes the value with that
pattern.  `width` is 32 for `Float` and 64 for `Double`. -/
def parseFloatBits (width : Nat) (cs : List Char) : Option Nat :=
  match parseDigits cs with
  | none => none
  | some n => if n < 2 ^ width then some n else none

/-- `usize::MAX` on the 64-bit targets the crate is built for. -/
def usizeMax : Nat := 2 ^ 64 - 1

/-! ## The data-line tokenizer (spec §4.2)

`grammar::data_line` of `src/parser/ply_grammar.rs` is not under `src/`; it
is modelled from the spec: tokens are separated by runs of space/tab, a
trailing `\n`, `\r` or `\r\n` is stripped, and every token must match the
numeric literal grammar (optional single leading sign, digits, optional
fraction, optional exponent). -/

/-- A space or tab, the token separators of spec §4.2. -/
def isSpaceTab (c : Char) : Bool := c == ' ' || c == '\t'

/-- Split on runs of space/tab, accumulating the current token reversed. -/
def splitFieldsAux : List Char → List Char → List (List Char)
  | [], cur => if cur.isEmpty then [] else [cur.reverse]
  | c :: cs, cur =>
    if isSpaceTab c then
      if cur.isEmpty then splitFieldsAux cs [] else cur.reverse :: splitFieldsAux cs []
    else splitFieldsAux cs (c :: cur)

/-- Modelled from the spec: whitespace tokenization of a data line. -/
def splitFields (cs : List Char) : List (List Char) := splitFieldsAux cs []

/-- Modelled from the spec: strip one trailing `\n`, `\r` or `\r\n`. -/
def stripLineBreak (cs : List Char) : List Char :=
  match cs.reverse with
  | [] => cs
  | c :: r =>
    if c = '\n' then
      match r with
      | c2 :: r2 => if c2 = '\r' then r2.reverse else r.reverse
      | [] => []
    else if c = '\r' then r.reverse
    else cs

/-- The optional exponent part of the numeric literal grammar:
`e`/`E`, an optional sign, one or more digits — or nothing. -/
def expPart : List Char → Bool
  | [] => true
  | c :: r =>
    (c == 'e' || c == 'E') &&
      (let r' := match r with
        | s :: r2 => if s == '+' || s == '-' then r2 else s :: r2
        | [] => []
       let (d, r3) := r'.span Char.isDigit
       !d.isEmpty && r3.isEmpty)

/-- The optional fraction (`.` and one or more digits) followed by the
optional exponent. -/
def fracThenExp : List Char → Bool
  | '.' :: r =>
    let (d, r2) := r.span Char.isDigit
    !d.isEmpty && expPart r2
  | r => expPart r

/-- Modelled from the spec: the numeric literal grammar of §4.2 — an optional
single leading `+`/`-`, digits, optional `.`+digits, optional exponent. -/
def isNumericToken (cs : List Char) : Bool :=
  let cs1 := match cs with
    | c :: r => if c == '+' || c == '-' then r else c :: r
    | [] => []
  let (d, r) := cs1.span Char.isDigit
  !d.isEmpty && fracThenExp r

/-- Modelled from the spec: `grammar::data_line` — tokenize one data line
into its whitespace-separated numeric fields; any non-numeric token is a
parse failure; an empty line yields zero fields. -/
def dataLine (s : String) : Option (List String) :=
  let toks := splitFields (stripLineBreak s.data)
  if toks.all isNumericToken then some (toks.map String.mk) else none

/-! ## Ascii payload decoder (`src/parser/mod.rs`, lines 403–551) -/

/-- The per-scalar-type parse-and-wrap dispatch of `read_ascii_property`
(lines 476–485 of `src/parser/mod.rs`). -/
def parseScalarProp (t : ScalarType) (s : String) : Option Property :=
  match t with
  | .Char => (parseSigned (-128) 127 s.data).map Property.Char
  | .UChar => (parseUnsigned 255 s.data).map Property.UChar
  | .Short => (parseSigned (-32768) 32767 s.data).map Property.Short
  | .UShort => (parseUnsigned 65535 s.data).map Property.UShort
  | .Int => (parseSigned (-2147483648) 2147483647 s.data).map Property.Int
  | .UInt => (parseUnsigned 4294967295 s.data).map Property.UInt
  | .Float => (parseFloatBits 32 s.data).map Property.Float
  | .Double => (parseFloatBits 64 s.data).map Property.Double

/-- `read_ascii_list` (lines 527–550 of `src/parser/mod.rs`), generic over
the element parse exactly as the Rust function is generic over `D: FromStr`:
consume `count` further fields, parsing each. -/
def read_ascii_list {α : Type} (p : String → Option α) :
    Nat → List String → Except String (List α × List String)
  | 0, fs => .ok ([], fs)
  | _ + 1, [] => .error "Couldn't find a list element."
  | k + 1, s :: rest =>
    match p s with
    | none => .error "Parse error."
    | some v => (read_ascii_list p k rest).map fun pr => (v :: pr.1, pr.2)

/-- `read_ascii_property` (lines 457–511 of `src/parser/mod.rs`): consume one
field; a scalar parses it directly, a list parses it as a `usize` count and
then reads that many elements of the list's element type (the declared index
type is ignored by the ascii path, as in the source). -/
def read_ascii_property (dt : PropertyType) (fields : List String) :
    Except String (Property × List String) :=
  match fields with
  | [] => .error "Expected element, but found nothing."
  | s :: rest =>
    match dt with
    | .Scalar t =>
      match parseScalarProp t s with
      | none => .error "Parse error."
      | some p => .ok (p, rest)
    | .List _ t =>
      match parseUnsigned usizeMax s.data with
      | none => .error "Parse error."
      | some count =>
        match t with
        | .Char => (read_ascii_list (fun s => parseSigned (-128) 127 s.data) count rest).map
            fun pr => (Property.ListChar pr.1, pr.2)
        | .UChar => (read_ascii_list (fun s => parseUnsigned 255 s.data) count rest).map
            fun pr => (Property.ListUChar pr.1, pr.2)
        | .Short => (read_ascii_list (fun s => parseSigned (-32768) 32767 s.data) count rest).map
            fun pr => (Property.ListShort pr.1, pr.2)
        | .UShort => (read_ascii_list (fun s => parseUnsigned 65535 s.data) count rest).map
            fun pr => (Property.ListUShort pr.1, pr.2)
        | .Int => (read_ascii_list (fun s => parseSigned (-2147483648) 2147483647 s.data)
            count rest).map fun pr => (Property.ListInt pr.1, pr.2)
        | .UInt => (read_ascii_list (fun s => parseUnsigned 4294967295 s.data) count rest).map
            fun pr => (Property.ListUInt pr.1, pr.2)
        | .Float => (read_ascii_list (fun s => parseFloatBits 32 s.data) count rest).map
            fun pr => (Property.ListFloat pr.1, pr.2)
        | .Double => (read_ascii_list (fun s => parseFloatBits 64 s.data) count rest).map
            fun pr => (Property.ListDouble pr.1, pr.2)

/-- The property loop of `read_ascii_element` (lines 448–453 of
`src/parser/mod.rs`): fields are consumed left-to-right strictly in property
declaration order, each decoded value stored via `set_property`; leftover
fields are returned (and ignored by the caller). -/
def readAsciiProps : List PropertyDef → List String → Elem →
    Except String (Elem × List String)
  | [], fields, vals => .ok (vals, fields)
  | d :: defs, fields, vals =>
    match read_ascii_property d.data_type fields with
    | .error e => .error e
    | .ok (p, rest) => readAsciiProps defs rest (vals.set_property d.name p)

/-- `read_ascii_element` (lines 434–455 of `src/parser/mod.rs`): tokenize the
line, then run the property loop on a fresh element; leftover fields are
dropped. -/
def read_ascii_element (line : String) (ed : ElementDef) : Except String Elem :=
  match dataLine line with
  | none => .error "Couldn't parse element line."
  | some fields => (readAsciiProps ed.properties fields Elem.new).map Prod.fst

/-- The per-record loop of `read_ascii_payload_for_element` (lines 404–429 of
`src/parser/mod.rs`).  `read_line` at EOF returns an empty string without an
error (tokio `read_line` returns `Ok(0)`), embedded by reading `""` from an
exhausted line list. -/
def readAsciiPayloadLoop (ed : ElementDef) : Nat → List String →
    Except String (List Elem × List String)
  | 0, lines => .ok ([], lines)
  | k + 1, lines =>
    let step := match lines with
      | [] => ("", ([] : List String))
      | l :: ls => (l, ls)
    match read_ascii_element step.1 ed with
    | .error e => .error e
    | .ok el => (readAsciiPayloadLoop ed k step.2).map fun pr => (el :: pr.1, pr.2)

/-- `read_ascii_payload_for_element`: read exactly `count` lines, decoding
each into one element. -/
def read_ascii_payload_for_element (lines : List String) (ed : ElementDef) :
    Except String (List Elem × List String) :=
  readAsciiPayloadLoop ed ed.count lines

/-! ## Theorems about the ascii decoder -/

theorem read_ascii_element_empty_line (ed : ElementDef) (hne : ed.properties ≠ []) :
    read_ascii_element "" ed = .error "Expected element, but found nothing." := by
  obtain ⟨d, defs, hdd⟩ : ∃ d defs, ed.properties = d :: defs := by
    cases hp : ed.properties with
    | nil => exact absurd hp hne
    | cons d defs => exact ⟨d, defs, rfl⟩
  have hstep : read_ascii_element "" ed =
      (readAsciiProps ed.properties [] Elem.new).map Prod.fst := rfl
  rw [hstep, hdd]
  rfl

theorem readAsciiPayloadLoop_spec (ed : ElementDef) (k : Nat) (lines : List String)
    (elems : List Elem) (rest : List String)
    (h : readAsciiPayloadLoop ed k lines = .ok (elems, rest)) :
    elems.length = k ∧ rest = lines.drop k ∧ (ed.properties ≠ [] → k ≤ lines.length) := by
  induction k generalizing lines elems rest with
  | zero =>
    simp only [readAsciiPayloadLoop, Except.ok.injEq, Prod.mk.injEq] at h
    obtain ⟨h1, h2⟩ := h
    subst h1
    subst h2
    simp
  | succ k ih =>
    cases lines with
    | nil =>
      simp only [readAsciiPayloadLoop] at h
      by_cases hne : ed.properties = []
      · have hre : read_ascii_element "" ed = .ok Elem.new := by
          have hstep : read_ascii_element "" ed =
              (readAsciiProps ed.properties [] Elem.new).map Prod.fst := rfl
          rw [hstep, hne]
          rfl
        rw [hre] at h
        rcases hloop : readAsciiPayloadLoop ed k [] with e | pr
        · rw [hloop] at h
          simp [Except.map] at h
        · obtain ⟨elems', rest'⟩ := pr
          rw [hloop] at h
          simp only [Except.map, Except.ok.injEq, Prod.mk.injEq] at h
          obtain ⟨h1, h2⟩ := h
          subst h1
          subst h2
          obtain ⟨ihl, ihr, _⟩ := ih [] elems' rest' hloop
          refine ⟨by simp [ihl], by simpa using ihr, ?_⟩
          intro hp
          exact absurd hne (by simpa using hp)
      · rw [read_ascii_element_empty_line ed hne] at h
        simp at h
    | cons l ls =>
      simp only [readAsciiPayloadLoop] at h
      rcases hre : read_ascii_element l ed with e | el
      · rw [hre] at h
        simp at h
      · rw [hre] at h
        rcases hloop : readAsciiPayloadLoop ed k ls with e | pr
        · rw [hloop] at h
          simp [Except.map] at h
        · obtain ⟨elems', rest'⟩ := pr
          rw [hloop] at h
          simp only [Except.map, Except.ok.injEq, Prod.mk.injEq] at h
          obtain ⟨h1, h2⟩ := h
          subst h1
          subst h2
          obtain ⟨ihl, ihr, ihp⟩ := ih ls elems' rest' hloop
          refine ⟨by simp [ihl], by simpa using ihr, ?_⟩
          intro hp
          simpa using Nat.succ_le_succ (ihp hp)

/-- **Claim C2 (amended).** The ascii payload decoder consumes exactly
`count` lines of the source (reading the empty string once the source is
exhausted, as `read_line` does at EOF) and returns exactly `count` elements;
when the element has at least one property, success requires at least `count`
actual input lines, so hitting EOF earlier is an error.  (With zero declared
properties, the empty lines EOF yields decode successfully, so the decoder
can succeed with fewer input lines than declared — see the counterexample.) -/
theorem claim_C2 (lines : List String) (ed : ElementDef) (elems : List Elem)
    (rest : List String)
    (h : read_ascii_payload_for_element lines ed = .ok (elems, rest)) :
    elems.length = ed.count ∧ rest = lines.drop ed.count ∧
    (ed.properties ≠ [] → ed.count ≤ lines.length) :=
  readAsciiPayloadLoop_spec ed ed.count lines elems rest h

/-- A zero-property element declared with count 1. -/
def edC2NoProps : ElementDef := ⟨"e", 1, []⟩

/-- Counterexample to claim C2 as stated: for a zero-property element with
declared count 1 and an already-exhausted line source (EOF before any line),
`read_ascii_payload_for_element` succeeds with one (default) element instead
of returning an error: at EOF `read_line` yields an empty string, which
decodes as a zero-field line, valid for a zero-property element. -/
theorem claim_C2_counterexample :
    ([] : List String).length < edC2NoProps.count ∧
    read_ascii_payload_for_element [] edC2NoProps = .ok ([Elem.new], []) :=
  ⟨by decide, rfl⟩

/-- Concrete element for the C2 witness (the spec's end-to-end `point`
example). -/
def edC2 : ElementDef := ⟨"point", 2, [⟨"x", .Scalar .Int⟩, ⟨"y", .Scalar .Int⟩]⟩

/-- The decode result of the two `point` lines. -/
def outC2 : List Elem × List String :=
  ([[("x", .Int (-7)), ("y", .Int 5)], [("x", .Int 2), ("y", .Int 4)]], [])

/-- Witness for C2 at a concrete input. -/
theorem claim_C2_witness :
    outC2.1.length = edC2.count ∧
    outC2.2 = (["-7 5", "2 4"] : List String).drop edC2.count ∧
    (edC2.properties ≠ [] → edC2.count ≤ (["-7 5", "2 4"] : List String).length) :=
  claim_C2 ["-7 5", "2 4"] edC2 outC2.1 outC2.2 (by rfl)

theorem exceptMap_ok {α β : Type} (f : α → β) (x : Except String α) (b : β) :
    Except.map f x = .ok b ↔ ∃ a, x = .ok a ∧ b = f a := by
  cases x <;> simp [Except.map, eq_comm]

theorem read_ascii_list_append {α : Type} (p : String → Option α) (k : Nat)
    (fs ex : List String) (vs : List α) (rest : List String)
    (h : read_ascii_list p k fs = .ok (vs, rest)) :
    read_ascii_list p k (fs ++ ex) = .ok (vs, rest ++ ex) := by
  induction k generalizing fs vs rest with
  | zero =>
    simp only [read_ascii_list, Except.ok.injEq, Prod.mk.injEq] at h
    obtain ⟨h1, h2⟩ := h
    subst h1
    subst h2
    rfl
  | succ k ih =>
    cases fs with
    | nil => simp [read_ascii_list] at h
    | cons s r =>
      rw [List.cons_append]
      simp only [read_ascii_list] at h ⊢
      rcases hp : p s with _ | v
      · rw [hp] at h
        simp at h
      · rw [hp] at h
        have h2 : Except.map (fun pr => (v :: pr.1, pr.2)) (read_ascii_list p k r) =
            Except.ok (vs, rest) := h
        rw [exceptMap_ok] at h2
        obtain ⟨⟨vs', rest'⟩, hl, hb⟩ := h2
        show Except.map (fun pr => (v :: pr.1, pr.2)) (read_ascii_list p k (r ++ ex)) =
          Except.ok (vs, rest ++ ex)
        rw [exceptMap_ok]
        refine ⟨(vs', rest' ++ ex), ih r vs' rest' hl, ?_⟩
        simp only [Prod.mk.injEq] at hb
        obtain ⟨rfl, rfl⟩ := hb
        rfl

theorem listArm_append {α : Type} (P : String → Option α) (g : List α → Property)
    (count : Nat) (r ex : List String) (p : Property) (rest : List String)
    (h : Except.map (fun pr => (g pr.1, pr.2)) (read_ascii_list P count r) = .ok (p, rest)) :
    Except.map (fun pr => (g pr.1, pr.2)) (read_ascii_list P count (r ++ ex)) =
      .ok (p, rest ++ ex) := by
  rw [exceptMap_ok] at h
  obtain ⟨⟨vs1, rest1⟩, hl, hb⟩ := h
  rw [exceptMap_ok]
  refine ⟨(vs1, rest1 ++ ex), read_ascii_list_append _ _ _ _ _ _ hl, ?_⟩
  simp only [Prod.mk.injEq] at hb
  obtain ⟨rfl, rfl⟩ := hb
  rfl

theorem read_ascii_property_append (dt : PropertyType) (fs ex : List String) (p : Property)
    (rest : List String) (h : read_ascii_property dt fs = .ok (p, rest)) :
    read_ascii_property dt (fs ++ ex) = .ok (p, rest ++ ex) := by
  cases fs with
  | nil => simp [read_ascii_property] at h
  | cons s r =>
    rw [List.cons_append]
    cases dt with
    | Scalar t =>
      simp only [read_ascii_property] at h ⊢
      rcases hps : parseScalarProp t s with _ | p0
      · rw [hps] at h
        simp at h
      · rw [hps] at h
        have h2 : (Except.ok (p0, r) : Except String (Property × List String)) =
            .ok (p, rest) := h
        simp only [Except.ok.injEq, Prod.mk.injEq] at h2
        obtain ⟨rfl, rfl⟩ := h2
        rfl
    | List it t =>
      simp only [read_ascii_property] at h ⊢
      rcases hc : parseUnsigned usizeMax s.data with _ | count
      · rw [hc] at h
        simp at h
      · rw [hc] at h
        cases t <;> exact listArm_append _ _ _ _ _ _ _ h

theorem readAsciiProps_append (defs : List PropertyDef) (fs ex : List String) (acc v : Elem)
    (rest : List String) (h : readAsciiProps defs fs acc = .ok (v, rest)) :
    readAsciiProps defs (fs ++ ex) acc = .ok (v, rest ++ ex) := by
  induction defs generalizing fs acc with
  | nil =>
    simp only [readAsciiProps, Except.ok.injEq, Prod.mk.injEq] at h
    obtain ⟨h1, h2⟩ := h
    subst h1
    subst h2
    rfl
  | cons d defs ih =>
    simp only [readAsciiProps] at h ⊢
    rcases hp : read_ascii_property d.data_type fs with e | pr
    · rw [hp] at h
      simp at h
    · obtain ⟨p0, r0⟩ := pr
      rw [hp] at h
      rw [read_ascii_property_append _ _ ex _ _ hp]
      exact ih _ _ h

/-- **Claim C8.** If the leading fields of an ascii data line fully satisfy
the element's declared properties, `read_ascii_element` succeeds even when
extra trailing fields remain, and returns the same element as the line with
those trailing fields removed. -/
theorem claim_C8 (ed : ElementDef) (line line' : String) (used extra : List String)
    (v : Elem)
    (hline : dataLine line = some (used ++ extra))
    (hline' : dataLine line' = some used)
    (hused : readAsciiProps ed.properties used Elem.new = .ok (v, [])) :
    read_ascii_element line ed = .ok v ∧ read_ascii_element line' ed = .ok v := by
  constructor
  · have happ := readAsciiProps_append ed.properties used extra Elem.new v [] hused
    simp only [read_ascii_element, hline]
    rw [happ]
    rfl
  · simp only [read_ascii_element, hline']
    rw [hused]
    rfl

/-- Concrete element for the C8 witness. -/
def edC8 : ElementDef := ⟨"p", 1, [⟨"x", .Scalar .Int⟩]⟩

/-- Witness for C8 at a concrete input: the line `1 2 3` decodes like the
line `1` for a one-int-property element. -/
theorem claim_C8_witness :
    read_ascii_element "1 2 3" edC8 = .ok [("x", Property.Int 1)] ∧
    read_ascii_element "1" edC8 = .ok [("x", Property.Int 1)] :=
  claim_C8 edC8 "1 2 3" "1" ["1"] ["2", "3"] [("x", Property.Int 1)]
    (by rfl) (by rfl) (by rfl)

/-! ## Binary payload decoder (`src/parser/mod.rs`, lines 554–730) -/

/-- The two byte orders the binary decoder is parameterized by
(`byteorder::BigEndian` / `byteorder::LittleEndian`). -/
inductive ByteOrder where
  | BE | LE
deriving DecidableEq, Repr

/-- Exact byte read from the stream: `n` bytes or the short-read I/O error
(`read_exact` semantics of the tokio-byteorder reads). -/
def readBytes (n : Nat) (bs : List Nat) : Except String (List Nat × List Nat) :=
  if n ≤ bs.length then .ok (bs.take n, bs.drop n) else .error "failed to fill whole buffer"

/-- Byte-order assembly of an unsigned value from its wire bytes (the
semantics of the `byteorder` fixed-width reads). -/
def assemble (bo : ByteOrder) (bytes : List Nat) : Nat :=
  match bo with
  | .BE => bytes.foldl (fun a b => a * 256 + b) 0
  | .LE => bytes.reverse.foldl (fun a b => a * 256 + b) 0

/-- Two's-complement interpretation of a `w`-bit pattern (the signed
`read_i8`/`read_i16`/`read_i32` reads). -/
def toSigned (w : Nat) (v : Nat) : Int :=
  if v < 2 ^ (w - 1) then (v : Int) else (v : Int) - 2 ^ w

/-- The `as usize` cast applied to a decoded list index value
(lines 653–657 of `src/parser/mod.rs`): two's-complement conversion on the
64-bit target, so a negative index wraps around. -/
def castUsize (i : Int) : Nat := (i % (2 ^ 64 : Int)).toNat

/-- Read one unsigned `w`-bit value (`w/8` bytes) in byte order `bo`. -/
def readUInt (w : Nat) (bo : ByteOrder) (bs : List Nat) :
    Except String (Nat × List Nat) :=
  (readBytes (w / 8) bs).map fun pr => (assemble bo pr.1, pr.2)

/-- Read one signed `w`-bit value in byte order `bo`. -/
def readSInt (w : Nat) (bo : ByteOrder) (bs : List Nat) :
    Except String (Int × List Nat) :=
  (readBytes (w / 8) bs).map fun pr => (toSigned w (assemble bo pr.1), pr.2)

/-- The scalar arm of `read_binary_property` (lines 640–648 of
`src/parser/mod.rs`); `Float`/`Double` payloads are read as their raw 32/64
bit patterns. -/
def readBinaryScalar (bo : ByteOrder) (t : ScalarType) (bs : List Nat) :
    Except String (Property × List Nat) :=
  match t with
  | .Char => (readSInt 8 bo bs).map fun pr => (.Char pr.1, pr.2)
  | .UChar => (readUInt 8 bo bs).map fun pr => (.UChar pr.1, pr.2)
  | .Short => (readSInt 16 bo bs).map fun pr => (.Short pr.1, pr.2)
  | .UShort => (readUInt 16 bo bs).map fun pr => (.UShort pr.1, pr.2)
  | .Int => (readSInt 32 bo bs).map fun pr => (.Int pr.1, pr.2)
  | .UInt => (readUInt 32 bo bs).map fun pr => (.UInt pr.1, pr.2)
  | .Float => (readUInt 32 bo bs).map fun pr => (.Float pr.1, pr.2)
  | .Double => (readUInt 64 bo bs).map fun pr => (.Double pr.1, pr.2)

/-- The list-count read of `read_binary_property` (lines 651–667 of
`src/parser/mod.rs`): read one value of the index type and cast it
`as usize`; a `Float` or `Double` index type is an immediate error, before
any byte is read. -/
def readBinaryCount (bo : ByteOrder) (t : ScalarType) (bs : List Nat) :
    Except String (Nat × List Nat) :=
  match t with
  | .Char => (readSInt 8 bo bs).map fun pr => (castUsize pr.1, pr.2)
  | .UChar => (readUInt 8 bo bs).map fun pr => (pr.1, pr.2)
  | .Short => (readSInt 16 bo bs).map fun pr => (castUsize pr.1, pr.2)
  | .UShort => (readUInt 16 bo bs).map fun pr => (pr.1, pr.2)
  | .Int => (readSInt 32 bo bs).map fun pr => (castUsize pr.1, pr.2)
  | .UInt => (readUInt 32 bo bs).map fun pr => (pr.1, pr.2)
  | .Float => .error "Index of list must be an integer type, float declared in ScalarType."
  | .Double => .error "Index of list must be an integer type, double declared in ScalarType."

/-- One of the per-type list loops of `read_binary_property`
(lines 668–725): read `count` signed `w`-bit values. -/
def readBinaryListS (w : Nat) (bo : ByteOrder) : Nat → List Nat →
    Except String (List Int × List Nat)
  | 0, bs => .ok ([], bs)
  | k + 1, bs =>
    match readSInt w bo bs with
    | .error e => .error e
    | .ok (v, rest) => (readBinaryListS w bo k rest).map fun pr => (v :: pr.1, pr.2)

/-- One of the per-type list loops of `read_binary_property`
(lines 668–725): read `count` unsigned `w`-bit values (also used for the
float bit patterns). -/
def readBinaryListU (w : Nat) (bo : ByteOrder) : Nat → List Nat →
    Except String (List Nat × List Nat)
  | 0, bs => .ok ([], bs)
  | k + 1, bs =>
    match readUInt w bo bs with
    | .error e => .error e
    | .ok (v, rest) => (readBinaryListU w bo k rest).map fun pr => (v :: pr.1, pr.2)

/-- The element-type dispatch over the eight list loops of
`read_binary_property` (lines 668–725). -/
def readBinaryListElems (bo : ByteOrder) (t : ScalarType) (count : Nat) (bs : List Nat) :
    Except String (Property × List Nat) :=
  match t with
  | .Char => (readBinaryListS 8 bo count bs).map fun pr => (.ListChar pr.1, pr.2)
  | .UChar => (readBinaryListU 8 bo count bs).map fun pr => (.ListUChar pr.1, pr.2)
  | .Short => (readBinaryListS 16 bo count bs).map fun pr => (.ListShort pr.1, pr.2)
  | .UShort => (readBinaryListU 16 bo count bs).map fun pr => (.ListUShort pr.1, pr.2)
  | .Int => (readBinaryListS 32 bo count bs).map fun pr => (.ListInt pr.1, pr.2)
  | .UInt => (readBinaryListU 32 bo count bs).map fun pr => (.ListUInt pr.1, pr.2)
  | .Float => (readBinaryListU 32 bo count bs).map fun pr => (.ListFloat pr.1, pr.2)
  | .Double => (readBinaryListU 64 bo count bs).map fun pr => (.ListDouble pr.1, pr.2)

/-- `read_binary_property` (lines 634–729 of `src/parser/mod.rs`). -/
def read_binary_property (bo : ByteOrder) (dt : PropertyType) (bs : List Nat) :
    Except String (Property × List Nat) :=
  match dt with
  | .Scalar t => readBinaryScalar bo t bs
  | .List it et =>
    match readBinaryCount bo it bs with
    | .error e => .error e
    | .ok (count, rest) => readBinaryListElems bo et count rest

/-- The property loop of `read_binary_element` (lines 619–632). -/
def readBinaryProps (bo : ByteOrder) : List PropertyDef → List Nat → Elem →
    Except String (Elem × List Nat)
  | [], bs, vals => .ok (vals, bs)
  | d :: defs, bs, vals =>
    match read_binary_property bo d.data_type bs with
    | .error e => .error e
    | .ok (p, rest) => readBinaryProps bo defs rest (vals.set_property d.name p)

/-- `read_binary_element` (lines 619–632 of `src/parser/mod.rs`). -/
def read_binary_element (bo : ByteOrder) (ed : ElementDef) (bs : List Nat) :
    Except String (Elem × List Nat) :=
  readBinaryProps bo ed.properties bs Elem.new

/-- The per-record loop of `read_binary_payload_for_element`
(lines 602–617). -/
def readBinaryPayloadLoop (bo : ByteOrder) (ed : ElementDef) : Nat → List Nat →
    Except String (List Elem × List Nat)
  | 0, bs => .ok ([], bs)
  | k + 1, bs =>
    match read_binary_element bo ed bs with
    | .error e => .error e
    | .ok (el, rest) => (readBinaryPayloadLoop bo ed k rest).map fun pr => (el :: pr.1, pr.2)

/-- `read_binary_payload_for_element` (lines 602–617): decode exactly `count`
records. -/
def read_binary_payload_for_element (bo : ByteOrder) (bs : List Nat) (ed : ElementDef) :
    Except String (List Elem × List Nat) :=
  readBinaryPayloadLoop bo ed ed.count bs

/-- `read_payload_for_element` (lines 331–352 of `src/parser/mod.rs`):
dispatch on the header's encoding.  The reader offers both a line view and a
byte view of the stream; the ascii path consumes lines, the binary paths
consume bytes. -/
def read_payload_for_element (header : Header) (lines : List String) (bs : List Nat)
    (ed : ElementDef) : Except String (List Elem) :=
  match header.encoding with
  | .Ascii => (read_ascii_payload_for_element lines ed).map Prod.fst
  | .BinaryBigEndian => (read_binary_payload_for_element .BE bs ed).map Prod.fst
  | .BinaryLittleEndian => (read_binary_payload_for_element .LE bs ed).map Prod.fst

/-- **Claim C4.** For every binary list property whose declared index type is
`Float` or `Double`, `read_binary_property` returns the declared error, and
this result is the same for every stream content — no byte of the count or of
the list elements is consumed. -/
theorem claim_C4 (bo : ByteOrder) (et : ScalarType) (bs : List Nat) :
    read_binary_property bo (.List .Float et) bs =
      .error "Index of list must be an integer type, float declared in ScalarType." ∧
    read_binary_property bo (.List .Double et) bs =
      .error "Index of list must be an integer type, double declared in ScalarType." :=
  ⟨rfl, rfl⟩

theorem assemble_single (bo : ByteOrder) (b : Nat) : assemble bo [b] = b := by
  cases bo <;> simp [assemble]

theorem readBytes_cons_one (b : Nat) (bs : List Nat) :
    readBytes 1 (b :: bs) = .ok ([b], bs) := by
  simp [readBytes]

/-- **Claim C9.** A negative decoded list index is not rejected: for every
signed index type (`Char`, `Short`, `Int`), a wire value in the negative
two's-complement range is converted `as usize` into the huge wrapped count
(`2^64 + value` on the 64-bit target) and the decoder then attempts to read
that many list elements. -/
theorem claim_C9 (bo : ByteOrder) (et : ScalarType) :
    (∀ b bs, 128 ≤ b → b < 256 →
      read_binary_property bo (.List .Char et) (b :: bs) =
        readBinaryListElems bo et (2 ^ 64 - 256 + b) bs) ∧
    (∀ b0 b1 bs v, assemble bo [b0, b1] = v → 2 ^ 15 ≤ v → v < 2 ^ 16 →
      read_binary_property bo (.List .Short et) (b0 :: b1 :: bs) =
        readBinaryListElems bo et (2 ^ 64 - 2 ^ 16 + v) bs) ∧
    (∀ b0 b1 b2 b3 bs v, assemble bo [b0, b1, b2, b3] = v → 2 ^ 31 ≤ v → v < 2 ^ 32 →
      read_binary_property bo (.List .Int et) (b0 :: b1 :: b2 :: b3 :: bs) =
        readBinaryListElems bo et (2 ^ 64 - 2 ^ 32 + v) bs) := by
  refine ⟨?_, ?_, ?_⟩
  · intro b bs h1 h2
    have hb : readBytes 1 (b :: bs) = .ok ([b], bs) := readBytes_cons_one b bs
    have hs : readSInt 8 bo (b :: bs) = .ok (toSigned 8 (assemble bo [b]), bs) := by
      simp [readSInt, hb, Except.map]
    have hc : readBinaryCount bo .Char (b :: bs) = .ok (2 ^ 64 - 256 + b, bs) := by
      simp only [readBinaryCount, hs, Except.map]
      rw [assemble_single]
      have ht : toSigned 8 b = (b : Int) - 2 ^ 8 := by
        unfold toSigned
        rw [if_neg (by push_cast; omega)]
      rw [ht]
      have hcast : castUsize ((b : Int) - 2 ^ 8) = 2 ^ 64 - 256 + b := by
        unfold castUsize
        omega
      rw [hcast]
    simp [read_binary_property, hc]
  · intro b0 b1 bs v hv h1 h2
    have hb : readBytes 2 (b0 :: b1 :: bs) = .ok ([b0, b1], bs) := by
      simp [readBytes]
    have hs : readSInt 16 bo (b0 :: b1 :: bs) = .ok (toSigned 16 v, bs) := by
      simp [readSInt, hb, Except.map, hv]
    have hc : readBinaryCount bo .Short (b0 :: b1 :: bs) =
        .ok (2 ^ 64 - 2 ^ 16 + v, bs) := by
      simp only [readBinaryCount, hs, Except.map]
      have ht : toSigned 16 v = (v : Int) - 2 ^ 16 := by
        unfold toSigned
        rw [if_neg (by push_cast; omega)]
      rw [ht]
      have hcast : castUsize ((v : Int) - 2 ^ 16) = 2 ^ 64 - 2 ^ 16 + v := by
        unfold castUsize
        omega
      rw [hcast]
    simp [read_binary_property, hc]
  · intro b0 b1 b2 b3 bs v hv h1 h2
    have hb : readBytes 4 (b0 :: b1 :: b2 :: b3 :: bs) = .ok ([b0, b1, b2, b3], bs) := by
      simp [readBytes]
    have hs : readSInt 32 bo (b0 :: b1 :: b2 :: b3 :: bs) = .ok (toSigned 32 v, bs) := by
      simp [readSInt, hb, Except.map, hv]
    have hc : readBinaryCount bo .Int (b0 :: b1 :: b2 :: b3 :: bs) =
        .ok (2 ^ 64 - 2 ^ 32 + v, bs) := by
      simp only [readBinaryCount, hs, Except.map]
      have ht : toSigned 32 v = (v : Int) - 2 ^ 32 := by
        unfold toSigned
        rw [if_neg (by push_cast; omega)]
      rw [ht]
      have hcast : castUsize ((v : Int) - 2 ^ 32) = 2 ^ 64 - 2 ^ 32 + v := by
        unfold castUsize
        omega
      rw [hcast]
    simp [read_binary_property, hc]

/-- Witness for C9 at a concrete input: a `Char` list index byte `0xFF`
(value −1) becomes the count `2^64 − 1`. -/
theorem claim_C9_witness :
    read_binary_property .BE (.List .Char .UChar) [255] =
      readBinaryListElems .BE .UChar (2 ^ 64 - 256 + 255) [] :=
  (claim_C9 .BE .UChar).1 255 [] (by decide) (by decide)

/-! ## Decimal rendering, for the cross-encoding equivalence claim

A record value is rendered into ascii tokens (canonical decimal numerals)
and into binary bytes; the decoders must take either rendering back to the
same generic element. -/

/-- The decimal digit character for a digit value. -/
def digitChar (d : Nat) : Char :=
  match d with
  | 0 => '0' | 1 => '1' | 2 => '2' | 3 => '3' | 4 => '4'
  | 5 => '5' | 6 => '6' | 7 => '7' | 8 => '8' | _ => '9'

/-- Decimal digits of a positive number, most significant first. -/
def toDecAux : Nat → List Char
  | 0 => []
  | n + 1 => toDecAux ((n + 1) / 10) ++ [digitChar ((n + 1) % 10)]
decreasing_by exact Nat.div_lt_self (Nat.succ_pos n) (by omega)

/-- Canonical decimal numeral of a natural number. -/
def renderNat (n : Nat) : List Char :=
  if n = 0 then ['0'] else toDecAux n

/-- Canonical decimal numeral of an integer (with a `-` sign when
negative). -/
def renderInt (i : Int) : List Char :=
  if i < 0 then '-' :: renderNat i.natAbs else renderNat i.toNat

theorem digitChar_isDigit (d : Nat) : (digitChar d).isDigit = true := by
  unfold digitChar
  split <;> decide

theorem digitChar_val (d : Nat) (h : d < 10) :
    (digitChar d).toNat - '0'.toNat = d := by
  interval_cases d <;> decide

theorem toDecAux_digits (n : Nat) : ∀ c ∈ toDecAux n, c.isDigit = true := by
  induction n using Nat.strong_induction_on with
  | _ n ih =>
    match n with
    | 0 => simp [toDecAux]
    | m + 1 =>
      rw [toDecAux]
      intro c hc
      rcases List.mem_append.mp hc with hc | hc
      · exact ih ((m + 1) / 10) (Nat.div_lt_self (Nat.succ_pos m) (by omega)) c hc
      · rw [List.mem_singleton] at hc
        subst hc
        exact digitChar_isDigit _

theorem toDecAux_ne_nil (n : Nat) (h : n ≠ 0) : toDecAux n ≠ [] := by
  match n with
  | 0 => exact absurd rfl h
  | m + 1 =>
    rw [toDecAux]
    simp

theorem parseDigitsAux_append (l1 l2 : List Char) (acc : Nat) :
    parseDigitsAux (l1 ++ l2) acc =
      match parseDigitsAux l1 acc with
      | none => none
      | some a => parseDigitsAux l2 a := by
  induction l1 generalizing acc with
  | nil => rfl
  | cons c cs ih =>
    simp only [List.cons_append, parseDigitsAux]
    by_cases hc : c.isDigit = true
    · rw [if_pos hc, if_pos hc]
      exact ih _
    · rw [if_neg hc, if_neg hc]

theorem parseDigitsAux_toDecAux (n : Nat) : ∀ acc,
    parseDigitsAux (toDecAux n) acc = some (acc * 10 ^ (toDecAux n).length + n) := by
  induction n using Nat.strong_induction_on with
  | _ n ih =>
    intro acc
    match n with
    | 0 => simp [toDecAux, parseDigitsAux]
    | m + 1 =>
      rw [toDecAux, parseDigitsAux_append,
        ih ((m + 1) / 10) (Nat.div_lt_self (Nat.succ_pos m) (by omega)) acc]
      have hd : (digitChar ((m + 1) % 10)).isDigit = true := digitChar_isDigit _
      have hv : (digitChar ((m + 1) % 10)).toNat - '0'.toNat = (m + 1) % 10 :=
        digitChar_val _ (Nat.mod_lt _ (by omega))
      simp only [parseDigitsAux, hd, if_pos, List.length_append,
        List.length_singleton, Option.some.injEq]
      rw [pow_succ]
      have hmod := Nat.div_add_mod (m + 1) 10
      have hPP : acc * ((10 : Nat) ^ (toDecAux ((m + 1) / 10)).length * 10) =
          acc * (10 ^ (toDecAux ((m + 1) / 10)).length) * 10 := by ring
      omega

theorem parseDigits_renderNat (n : Nat) : parseDigits (renderNat n) = some n := by
  unfold renderNat
  by_cases h0 : n = 0
  · subst h0
    decide
  · rw [if_neg h0]
    unfold parseDigits
    rw [if_neg (by simpa using toDecAux_ne_nil n h0)]
    rw [parseDigitsAux_toDecAux]
    simp

theorem renderNat_ne_nil (n : Nat) : renderNat n ≠ [] := by
  unfold renderNat
  by_cases h0 : n = 0
  · simp [h0]
  · rw [if_neg h0]
    exact toDecAux_ne_nil n h0

theorem renderNat_digits (n : Nat) : ∀ c ∈ renderNat n, c.isDigit = true := by
  unfold renderNat
  by_cases h0 : n = 0
  · rw [if_pos h0]
    intro c hc
    rw [List.mem_singleton] at hc
    subst hc
    decide
  · rw [if_neg h0]
    exact toDecAux_digits n

theorem isDigit_ne_sign (c : Char) (h : c.isDigit = true) : ¬ c = '-' ∧ ¬ c = '+' := by
  constructor <;> intro hc <;> subst hc <;> simp at h

theorem parseUnsigned_cons (max : Nat) (c : Char) (rest : List Char) :
    parseUnsigned max (c :: rest) =
      match parseDigits (if c = '+' then rest else c :: rest) with
      | none => none
      | some n => if n ≤ max then some n else none := rfl

theorem parseSigned_cons (min max : Int) (c : Char) (rest : List Char) :
    parseSigned min max (c :: rest) =
      if c = '-' then
        match parseDigits rest with
        | none => none
        | some n => if min ≤ -(n : Int) then some (-(n : Int)) else none
      else if c = '+' then
        match parseDigits rest with
        | none => none
        | some n => if (n : Int) ≤ max then some (n : Int) else none
      else
        match parseDigits (c :: rest) with
        | none => none
        | some n => if (n : Int) ≤ max then some (n : Int) else none := rfl

theorem parseUnsigned_renderNat (max n : Nat) (h : n ≤ max) :
    parseUnsigned max (renderNat n) = some n := by
  obtain ⟨c, cs, hcs⟩ : ∃ c cs, renderNat n = c :: cs := by
    cases hr : renderNat n with
    | nil => exact absurd hr (renderNat_ne_nil n)
    | cons c cs => exact ⟨c, cs, rfl⟩
  have hd : c.isDigit = true := renderNat_digits n c (by rw [hcs]; exact List.mem_cons_self _ _)
  rw [hcs, parseUnsigned_cons, if_neg (isDigit_ne_sign c hd).2, ← hcs,
    parseDigits_renderNat]
  simp [h]

theorem parseSigned_renderInt (min max i : Int) (h1 : min ≤ i) (h2 : i ≤ max) :
    parseSigned min max (renderInt i) = some i := by
  unfold renderInt
  by_cases hneg : i < 0
  · rw [if_pos hneg, parseSigned_cons, if_pos rfl, parseDigits_renderNat]
    show (if min ≤ -(i.natAbs : Int) then some (-(i.natAbs : Int)) else none) = some i
    rw [if_pos (by omega)]
    congr 1
    omega
  · rw [if_neg hneg]
    obtain ⟨c, cs, hcs⟩ : ∃ c cs, renderNat i.toNat = c :: cs := by
      cases hr : renderNat i.toNat with
      | nil => exact absurd hr (renderNat_ne_nil _)
      | cons c cs => exact ⟨c, cs, rfl⟩
    have hd : c.isDigit = true :=
      renderNat_digits _ c (by rw [hcs]; exact List.mem_cons_self _ _)
    rw [hcs, parseSigned_cons, if_neg (isDigit_ne_sign c hd).1,
      if_neg (isDigit_ne_sign c hd).2, ← hcs, parseDigits_renderNat]
    show (if (i.toNat : Int) ≤ max then some ((i.toNat : Int)) else none) = some i
    rw [if_pos (by omega)]
    congr 1
    omega

theorem parseFloatBits_renderNat (width n : Nat) (h : n < 2 ^ width) :
    parseFloatBits width (renderNat n) = some n := by
  unfold parseFloatBits
  rw [parseDigits_renderNat]
  simp [h]

/-! ## Tokenizer lemmas for the equivalence claim -/

/-- Join tokens with single spaces (the shape of a rendered ascii data
line). -/
def joinTokens : List (List Char) → List Char
  | [] => []
  | [t] => t
  | t :: ts => t ++ ' ' :: joinTokens ts

theorem span_all (p : Char → Bool) (l : List Char) (h : ∀ c ∈ l, p c = true) :
    l.span p = (l, []) := by
  rw [List.span_eq_take_drop, List.takeWhile_eq_self_iff.mpr h,
    List.dropWhile_eq_nil_iff.mpr h]

theorem splitFieldsAux_token (t : List Char) (cs cur : List Char)
    (ht : ∀ c ∈ t, isSpaceTab c = false) :
    splitFieldsAux (t ++ cs) cur = splitFieldsAux cs (t.reverse ++ cur) := by
  induction t generalizing cur with
  | nil => simp
  | cons c t' ih =>
    have hc : isSpaceTab c = false := ht c (List.mem_cons_self _ _)
    simp only [List.cons_append, splitFieldsAux, hc, ite_false, Bool.false_eq_true,
      List.append_eq]
    rw [ih _ (fun x hx => ht x (List.mem_cons_of_mem _ hx))]
    congr 1
    simp

theorem splitFields_join (toks : List (List Char))
    (hne : ∀ t ∈ toks, t ≠ [])
    (hws : ∀ t ∈ toks, ∀ c ∈ t, isSpaceTab c = false) :
    splitFields (joinTokens toks) = toks := by
  induction toks with
  | nil => rfl
  | cons t ts ih =>
    cases ts with
    | nil =>
      have hj : joinTokens [t] = t := rfl
      rw [hj]
      unfold splitFields
      have := splitFieldsAux_token t [] [] (hws t (List.mem_cons_self _ _))
      rw [List.append_nil, List.append_nil] at this
      rw [this]
      simp only [splitFieldsAux]
      rw [if_neg (by simpa using hne t (List.mem_cons_self _ _))]
      simp
    | cons t2 ts' =>
      have hj : joinTokens (t :: t2 :: ts') = t ++ ' ' :: joinTokens (t2 :: ts') := rfl
      rw [hj]
      unfold splitFields
      rw [splitFieldsAux_token t _ [] (hws t (List.mem_cons_self _ _)), List.append_nil]
      have hsp : isSpaceTab ' ' = true := by decide
      simp only [splitFieldsAux, hsp, if_pos]
      rw [if_neg (by simpa using hne t (List.mem_cons_self _ _))]
      rw [List.reverse_reverse]
      have ih2 := ih (fun x hx => hne x (List.mem_cons_of_mem _ hx))
        (fun x hx => hws x (List.mem_cons_of_mem _ hx))
      unfold splitFields at ih2
      rw [ih2]

theorem stripLineBreak_id (cs : List Char)
    (h : ∀ c ∈ cs, ¬ c = '\n' ∧ ¬ c = '\r') : stripLineBreak cs = cs := by
  unfold stripLineBreak
  cases hrev : cs.reverse with
  | nil => rfl
  | cons c r =>
    have hc : c ∈ cs := by
      rw [← List.mem_reverse, hrev]
      exact List.mem_cons_self _ _
    simp [(h c hc).1, (h c hc).2]

theorem mem_joinTokens (toks : List (List Char)) (c : Char) (hc : c ∈ joinTokens toks) :
    c = ' ' ∨ ∃ t ∈ toks, c ∈ t := by
  induction toks with
  | nil => simp [joinTokens] at hc
  | cons t ts ih =>
    cases ts with
    | nil =>
      have hj : joinTokens [t] = t := rfl
      rw [hj] at hc
      exact Or.inr ⟨t, List.mem_cons_self _ _, hc⟩
    | cons t2 ts' =>
      have hj : joinTokens (t :: t2 :: ts') = t ++ ' ' :: joinTokens (t2 :: ts') := rfl
      rw [hj] at hc
      rcases List.mem_append.mp hc with h | h
      · exact Or.inr ⟨t, List.mem_cons_self _ _, h⟩
      · rcases List.mem_cons.mp h with h | h
        · exact Or.inl h
        · rcases ih h with h | ⟨t', ht', hct⟩
          · exact Or.inl h
          · exact Or.inr ⟨t', List.mem_cons_of_mem _ ht', hct⟩

theorem goodChar_facts (c : Char) (h : c.isDigit = true ∨ c = '-') :
    isSpaceTab c = false ∧ ¬ c = '\n' ∧ ¬ c = '\r' := by
  rcases h with h | h
  · refine ⟨?_, ?_, ?_⟩
    · simp only [isSpaceTab, Bool.or_eq_false_iff, beq_eq_false_iff_ne, ne_eq]
      constructor <;> intro hc <;> subst hc <;> simp at h
    · intro hc
      subst hc
      simp at h
    · intro hc
      subst hc
      simp at h
  · subst h
    refine ⟨by decide, by decide, by decide⟩

theorem isNumericToken_renderNat (n : Nat) : isNumericToken (renderNat n) = true := by
  obtain ⟨c, cs, hcs⟩ : ∃ c cs, renderNat n = c :: cs := by
    cases hr : renderNat n with
    | nil => exact absurd hr (renderNat_ne_nil n)
    | cons c cs => exact ⟨c, cs, rfl⟩
  have hd : c.isDigit = true :=
    renderNat_digits n c (by rw [hcs]; exact List.mem_cons_self _ _)
  have hsign : (c == '+' || c == '-') = false := by
    simp only [Bool.or_eq_false_iff, beq_eq_false_iff_ne, ne_eq]
    exact ⟨(isDigit_ne_sign c hd).2, (isDigit_ne_sign c hd).1⟩
  unfold isNumericToken
  rw [hcs]
  simp only [hsign, ite_false, Bool.false_eq_true]
  rw [← hcs, span_all Char.isDigit (renderNat n) (renderNat_digits n)]
  have hfrac : fracThenExp [] = true := rfl
  simp [hfrac, renderNat_ne_nil n]

theorem isNumericToken_renderInt (i : Int) : isNumericToken (renderInt i) = true := by
  unfold renderInt
  by_cases hneg : i < 0
  · rw [if_pos hneg]
    unfold isNumericToken
    have hsign : (('-' : Char) == '+' || ('-' : Char) == '-') = true := by decide
    simp only [hsign, if_pos]
    rw [span_all Char.isDigit (renderNat i.natAbs) (renderNat_digits _)]
    have hfrac : fracThenExp [] = true := rfl
    simp [hfrac, renderNat_ne_nil i.natAbs]
  · rw [if_neg hneg]
    exact isNumericToken_renderNat i.toNat

/-- `renderNat` and `renderInt` produce only digits and the sign. -/
theorem renderInt_chars (i : Int) : ∀ c ∈ renderInt i, c.isDigit = true ∨ c = '-' := by
  unfold renderInt
  by_cases hneg : i < 0
  · rw [if_pos hneg]
    intro c hc
    rcases List.mem_cons.mp hc with rfl | hc
    · exact Or.inr rfl
    · exact Or.inl (renderNat_digits _ c hc)
  · rw [if_neg hneg]
    intro c hc
    exact Or.inl (renderNat_digits _ c hc)

theorem renderInt_ne_nil (i : Int) : renderInt i ≠ [] := by
  unfold renderInt
  by_cases hneg : i < 0
  · rw [if_pos hneg]
    simp
  · rw [if_neg hneg]
    exact renderNat_ne_nil _

/-- A rendered line of well-formed numeric tokens tokenizes back to exactly
those tokens. -/
theorem dataLine_join (toks : List (List Char))
    (hne : ∀ t ∈ toks, t ≠ [])
    (hchar : ∀ t ∈ toks, ∀ c ∈ t, c.isDigit = true ∨ c = '-')
    (hnum : ∀ t ∈ toks, isNumericToken t = true) :
    dataLine (String.mk (joinTokens toks)) = some (toks.map String.mk) := by
  have hws : ∀ t ∈ toks, ∀ c ∈ t, isSpaceTab c = false :=
    fun t ht c hc => (goodChar_facts c (hchar t ht c hc)).1
  have hstrip : stripLineBreak (joinTokens toks) = joinTokens toks := by
    refine stripLineBreak_id _ ?_
    intro c hc
    rcases mem_joinTokens toks c hc with rfl | ⟨t, ht, hct⟩
    · exact ⟨by decide, by decide⟩
    · exact (goodChar_facts c (hchar t ht c hct)).2
  have hdata : (String.mk (joinTokens toks)).data = joinTokens toks := rfl
  unfold dataLine
  rw [hdata, hstrip, splitFields_join toks hne hws,
    if_pos (List.all_eq_true.mpr (fun t ht => hnum t ht))]

/-! ## Binary rendering for the equivalence claim -/

/-- Big-endian bytes of an unsigned value, `k` bytes. -/
def encBE : Nat → Nat → List Nat
  | 0, _ => []
  | k + 1, n => encBE k (n / 256) ++ [n % 256]

/-- The wire bytes of a `k`-byte unsigned value in byte order `bo`. -/
def encBytes (bo : ByteOrder) (k : Nat) (n : Nat) : List Nat :=
  match bo with
  | .BE => encBE k n
  | .LE => (encBE k n).reverse

/-- The `w`-bit two's-complement pattern of a signed value. -/
def signedPattern (w : Nat) (i : Int) : Nat := (i % ((2 : Int) ^ w)).toNat

theorem encBE_length (k : Nat) : ∀ n, (encBE k n).length = k := by
  induction k with
  | zero => intro n; rfl
  | succ k ih => intro n; simp [encBE, ih]

theorem encBytes_length (bo : ByteOrder) (k n : Nat) : (encBytes bo k n).length = k := by
  cases bo <;> simp [encBytes, encBE_length]

theorem assembleBE_encBE (k : Nat) : ∀ n, n < 256 ^ k →
    (encBE k n).foldl (fun a b => a * 256 + b) 0 = n := by
  induction k with
  | zero =>
    intro n h
    simp only [pow_zero, Nat.lt_one_iff] at h
    subst h
    rfl
  | succ k ih =>
    intro n h
    have hdiv : n / 256 < 256 ^ k := by
      have hs : (256 : Nat) ^ (k + 1) = 256 ^ k * 256 := pow_succ 256 k
      omega
    rw [encBE, List.foldl_append]
    simp only [List.foldl_cons, List.foldl_nil]
    rw [ih (n / 256) hdiv]
    omega

theorem assemble_encBytes (bo : ByteOrder) (k n : Nat) (h : n < 256 ^ k) :
    assemble bo (encBytes bo k n) = n := by
  cases bo
  · exact assembleBE_encBE k n h
  · show (encBE k n).reverse.reverse.foldl (fun a b => a * 256 + b) 0 = n
    rw [List.reverse_reverse]
    exact assembleBE_encBE k n h

theorem readBytes_exact (k : Nat) (pre rest : List Nat) (h : pre.length = k) :
    readBytes k (pre ++ rest) = .ok (pre, rest) := by
  unfold readBytes
  rw [if_pos (by simp [← h])]
  subst h
  rw [List.take_left, List.drop_left]

theorem readUInt_enc (w k : Nat) (bo : ByteOrder) (n : Nat) (rest : List Nat)
    (hk : w / 8 = k) (h : n < 256 ^ k) :
    readUInt w bo (encBytes bo k n ++ rest) = .ok (n, rest) := by
  unfold readUInt
  rw [hk, readBytes_exact _ _ _ (encBytes_length bo k n)]
  show Except.ok (assemble bo (encBytes bo k n), rest) = _
  rw [assemble_encBytes bo _ n h]

theorem readSInt_enc (w k : Nat) (bo : ByteOrder) (p : Nat) (rest : List Nat)
    (hk : w / 8 = k) (h : p < 256 ^ k) :
    readSInt w bo (encBytes bo k p ++ rest) = .ok (toSigned w p, rest) := by
  unfold readSInt
  rw [hk, readBytes_exact _ _ _ (encBytes_length bo k p)]
  show Except.ok (toSigned w (assemble bo (encBytes bo k p)), rest) = _
  rw [assemble_encBytes bo _ p h]

theorem signedPattern_lt (w : Nat) (i : Int) : signedPattern w i < 2 ^ w := by
  unfold signedPattern
  have h1 : (0 : Int) < 2 ^ w := by positivity
  have h2 : i % ((2 : Int) ^ w) < 2 ^ w := Int.emod_lt_of_pos i h1
  have h3 : (0 : Int) ≤ i % ((2 : Int) ^ w) := Int.emod_nonneg i (by positivity)
  have h4 : ((2 : Int) ^ w) = ((2 ^ w : Nat) : Int) := by push_cast; ring
  omega

theorem toSigned_signedPattern (w : Nat) (i : Int) (hw : 0 < w)
    (h1 : -(2 ^ (w - 1)) ≤ i) (h2 : i < 2 ^ (w - 1)) :
    toSigned w (signedPattern w i) = i := by
  unfold toSigned signedPattern
  have hsplit : (2 : Int) ^ w = 2 ^ (w - 1) * 2 := by
    rw [← pow_succ]
    congr 1
    omega
  have hn : ((2 : Nat) ^ (w - 1) : Int) = (2 : Int) ^ (w - 1) := by push_cast; ring
  have hn2 : ((2 : Nat) ^ w : Int) = (2 : Int) ^ w := by push_cast; ring
  have hpos : (0 : Int) < 2 ^ w := by positivity
  have hmod1 : (0 : Int) ≤ i % ((2 : Int) ^ w) := Int.emod_nonneg i (by positivity)
  have hmod2 : i % ((2 : Int) ^ w) < 2 ^ w := Int.emod_lt_of_pos i hpos
  by_cases hdir : 0 ≤ i
  · have hval : i % ((2 : Int) ^ w) = i := Int.emod_eq_of_lt hdir (by omega)
    rw [hval, if_pos (by omega)]
    omega
  · have hle : (2 : Int) ^ (w - 1) ≤ 2 ^ w := by
      apply pow_le_pow_right₀ (by norm_num) (by omega)
    have hb1 : (0 : Int) ≤ i + 2 ^ w := by omega
    have hb2 : i + 2 ^ w < 2 ^ w := by omega
    have hval : i % ((2 : Int) ^ w) = i + 2 ^ w := by
      have hstep : (i + 2 ^ w * 1) % ((2 : Int) ^ w) = i % 2 ^ w :=
        Int.add_mul_emod_self_left i (2 ^ w) 1
      rw [mul_one] at hstep
      rw [← hstep]
      exact Int.emod_eq_of_lt hb1 hb2
    rw [hval, if_neg (by omega)]
    omega

/-! ## Record renderings (consistent encodings of one record value) -/

theorem stringMk_data (cs : List Char) : (String.mk cs).data = cs := rfl

/-- The byte width of each scalar type on the wire (spec §4.5). -/
def byteWidth (t : ScalarType) : Nat :=
  match t with
  | .Char | .UChar => 1
  | .Short | .UShort => 2
  | .Int | .UInt => 4
  | .Float => 4
  | .Double => 8

/-- The largest list count representable in an integer index type; `none` for
the float types, which are invalid index types. -/
def maxIndexVal (t : ScalarType) : Option Nat :=
  match t with
  | .Char => some 127
  | .UChar => some 255
  | .Short => some 32767
  | .UShort => some 65535
  | .Int => some 2147483647
  | .UInt => some 4294967295
  | .Float => none
  | .Double => none

/-- The ascii token of one scalar value, defined when the value matches the
declared type and fits its range. -/
def encodeScalarToken (t : ScalarType) (v : Property) : Option (List Char) :=
  match t, v with
  | .Char, .Char i => if -128 ≤ i ∧ i ≤ 127 then some (renderInt i) else none
  | .UChar, .UChar n => if n ≤ 255 then some (renderNat n) else none
  | .Short, .Short i => if -32768 ≤ i ∧ i ≤ 32767 then some (renderInt i) else none
  | .UShort, .UShort n => if n ≤ 65535 then some (renderNat n) else none
  | .Int, .Int i =>
    if -2147483648 ≤ i ∧ i ≤ 2147483647 then some (renderInt i) else none
  | .UInt, .UInt n => if n ≤ 4294967295 then some (renderNat n) else none
  | .Float, .Float b => if b < 2 ^ 32 then some (renderNat b) else none
  | .Double, .Double b => if b < 2 ^ 64 then some (renderNat b) else none
  | _, _ => none

/-- The ascii element tokens (and length) of one list value. -/
def encodeListTokens (et : ScalarType) (v : Property) :
    Option (Nat × List (List Char)) :=
  match et, v with
  | .Char, .ListChar xs =>
    if ∀ x ∈ xs, -128 ≤ x ∧ x ≤ 127 then some (xs.length, xs.map renderInt) else none
  | .UChar, .ListUChar xs =>
    if ∀ x ∈ xs, x ≤ 255 then some (xs.length, xs.map renderNat) else none
  | .Short, .ListShort xs =>
    if ∀ x ∈ xs, -32768 ≤ x ∧ x ≤ 32767 then some (xs.length, xs.map renderInt) else none
  | .UShort, .ListUShort xs =>
    if ∀ x ∈ xs, x ≤ 65535 then some (xs.length, xs.map renderNat) else none
  | .Int, .ListInt xs =>
    if ∀ x ∈ xs, -2147483648 ≤ x ∧ x ≤ 2147483647 then
      some (xs.length, xs.map renderInt) else none
  | .UInt, .ListUInt xs =>
    if ∀ x ∈ xs, x ≤ 4294967295 then some (xs.length, xs.map renderNat) else none
  | .Float, .ListFloat xs =>
    if ∀ x ∈ xs, x < 2 ^ 32 then some (xs.length, xs.map renderNat) else none
  | .Double, .ListDouble xs =>
    if ∀ x ∈ xs, x < 2 ^ 64 then some (xs.length, xs.map renderNat) else none
  | _, _ => none

/-- The ascii tokens of one property value. -/
def encodePropAscii (dt : PropertyType) (v : Property) : Option (List (List Char)) :=
  match dt with
  | .Scalar t => (encodeScalarToken t v).map fun tok => [tok]
  | .List it et =>
    match maxIndexVal it, encodeListTokens et v with
    | some m, some (len, toks) =>
      if len ≤ m then some (renderNat len :: toks) else none
    | _, _ => none

/-- The wire bytes of one scalar value in byte order `bo`. -/
def encodeScalarBytes (bo : ByteOrder) (t : ScalarType) (v : Property) :
    Option (List Nat) :=
  match t, v with
  | .Char, .Char i =>
    if -128 ≤ i ∧ i ≤ 127 then some (encBytes bo 1 (signedPattern 8 i)) else none
  | .UChar, .UChar n => if n ≤ 255 then some (encBytes bo 1 n) else none
  | .Short, .Short i =>
    if -32768 ≤ i ∧ i ≤ 32767 then some (encBytes bo 2 (signedPattern 16 i)) else none
  | .UShort, .UShort n => if n ≤ 65535 then some (encBytes bo 2 n) else none
  | .Int, .Int i =>
    if -2147483648 ≤ i ∧ i ≤ 2147483647 then
      some (encBytes bo 4 (signedPattern 32 i)) else none
  | .UInt, .UInt n => if n ≤ 4294967295 then some (encBytes bo 4 n) else none
  | .Float, .Float b => if b < 2 ^ 32 then some (encBytes bo 4 b) else none
  | .Double, .Double b => if b < 2 ^ 64 then some (encBytes bo 8 b) else none
  | _, _ => none

/-- The wire bytes (and length) of one list value's elements. -/
def encodeListBytes (bo : ByteOrder) (et : ScalarType) (v : Property) :
    Option (Nat × List Nat) :=
  match et, v with
  | .Char, .ListChar xs =>
    if ∀ x ∈ xs, -128 ≤ x ∧ x ≤ 127 then
      some (xs.length, (xs.map fun x => encBytes bo 1 (signedPattern 8 x)).flatten)
    else none
  | .UChar, .ListUChar xs =>
    if ∀ x ∈ xs, x ≤ 255 then
      some (xs.length, (xs.map fun x => encBytes bo 1 x).flatten) else none
  | .Short, .ListShort xs =>
    if ∀ x ∈ xs, -32768 ≤ x ∧ x ≤ 32767 then
      some (xs.length, (xs.map fun x => encBytes bo 2 (signedPattern 16 x)).flatten)
    else none
  | .UShort, .ListUShort xs =>
    if ∀ x ∈ xs, x ≤ 65535 then
      some (xs.length, (xs.map fun x => encBytes bo 2 x).flatten) else none
  | .Int, .ListInt xs =>
    if ∀ x ∈ xs, -2147483648 ≤ x ∧ x ≤ 2147483647 then
      some (xs.length, (xs.map fun x => encBytes bo 4 (signedPattern 32 x)).flatten)
    else none
  | .UInt, .ListUInt xs =>
    if ∀ x ∈ xs, x ≤ 4294967295 then
      some (xs.length, (xs.map fun x => encBytes bo 4 x).flatten) else none
  | .Float, .ListFloat xs =>
    if ∀ x ∈ xs, x < 2 ^ 32 then
      some (xs.length, (xs.map fun x => encBytes bo 4 x).flatten) else none
  | .Double, .ListDouble xs =>
    if ∀ x ∈ xs, x < 2 ^ 64 then
      some (xs.length, (xs.map fun x => encBytes bo 8 x).flatten) else none
  | _, _ => none

/-- The wire bytes of one property value. -/
def encodePropBytes (bo : ByteOrder) (dt : PropertyType) (v : Property) :
    Option (List Nat) :=
  match dt with
  | .Scalar t => encodeScalarBytes bo t v
  | .List it et =>
    match maxIndexVal it, encodeListBytes bo et v with
    | some m, some (len, ebytes) =>
      if len ≤ m then some (encBytes bo (byteWidth it) len ++ ebytes) else none
    | _, _ => none

/-- The ascii tokens of a whole record. -/
def encodeRecordTokens : List PropertyDef → List Property → Option (List (List Char))
  | [], [] => some []
  | d :: defs, v :: vs =>
    match encodePropAscii d.data_type v, encodeRecordTokens defs vs with
    | some toks, some more => some (toks ++ more)
    | _, _ => none
  | _, _ => none

/-- The wire bytes of a whole record. -/
def encodeRecordBytes (bo : ByteOrder) : List PropertyDef → List Property →
    Option (List Nat)
  | [], [] => some []
  | d :: defs, v :: vs =>
    match encodePropBytes bo d.data_type v, encodeRecordBytes bo defs vs with
    | some bytes, some more => some (bytes ++ more)
    | _, _ => none
  | _, _ => none

/-- The element both decoders must produce for a record: the fold of
`set_property` over the declared properties and the record's values. -/
def buildElem : Elem → List PropertyDef → List Property → Elem
  | acc, [], _ => acc
  | acc, _ :: _, [] => acc
  | acc, d :: defs, v :: vs => buildElem (acc.set_property d.name v) defs vs

/-- The full ascii line of a record: its tokens joined by single spaces. -/
def encodeRecordLine (defs : List PropertyDef) (vs : List Property) : Option String :=
  (encodeRecordTokens defs vs).map fun toks => String.mk (joinTokens toks)

/-! ## Scalar roundtrips through the two decoders -/

theorem parseScalarProp_enc (t : ScalarType) (v : Property) (tok : List Char)
    (h : encodeScalarToken t v = some tok) :
    parseScalarProp t (String.mk tok) = some v := by
  cases t <;> cases v <;>
    simp only [encodeScalarToken, Option.ite_none_right_eq_some,
      Option.some.injEq] at h <;>
    try exact Option.noConfusion h
  · rename_i x
    obtain ⟨hP, rfl⟩ := h
    simp only [parseScalarProp, stringMk_data]
    rw [parseSigned_renderInt _ _ _ (by omega) (by omega)]
    rfl
  · rename_i x
    obtain ⟨hP, rfl⟩ := h
    simp only [parseScalarProp, stringMk_data]
    rw [parseUnsigned_renderNat _ _ hP]
    rfl
  · rename_i x
    obtain ⟨hP, rfl⟩ := h
    simp only [parseScalarProp, stringMk_data]
    rw [parseSigned_renderInt _ _ _ (by omega) (by omega)]
    rfl
  · rename_i x
    obtain ⟨hP, rfl⟩ := h
    simp only [parseScalarProp, stringMk_data]
    rw [parseUnsigned_renderNat _ _ hP]
    rfl
  · rename_i x
    obtain ⟨hP, rfl⟩ := h
    simp only [parseScalarProp, stringMk_data]
    rw [parseSigned_renderInt _ _ _ (by omega) (by omega)]
    rfl
  · rename_i x
    obtain ⟨hP, rfl⟩ := h
    simp only [parseScalarProp, stringMk_data]
    rw [parseUnsigned_renderNat _ _ hP]
    rfl
  · rename_i x
    obtain ⟨hP, rfl⟩ := h
    simp only [parseScalarProp, stringMk_data]
    rw [parseFloatBits_renderNat _ _ hP]
    rfl
  · rename_i x
    obtain ⟨hP, rfl⟩ := h
    simp only [parseScalarProp, stringMk_data]
    rw [parseFloatBits_renderNat _ _ hP]
    rfl

theorem readBinaryScalar_enc (bo : ByteOrder) (t : ScalarType) (v : Property)
    (bytes rest : List Nat) (h : encodeScalarBytes bo t v = some bytes) :
    readBinaryScalar bo t (bytes ++ rest) = .ok (v, rest) := by
  cases t <;> cases v <;>
    simp only [encodeScalarBytes, Option.ite_none_right_eq_some,
      Option.some.injEq] at h <;>
    try exact Option.noConfusion h
  · rename_i x
    obtain ⟨hP, rfl⟩ := h
    simp only [readBinaryScalar]
    have hsp := signedPattern_lt 8 x
    rw [readSInt_enc 8 1 bo _ rest rfl (by norm_num at hsp ⊢; exact hsp),
      toSigned_signedPattern 8 x (by norm_num) (by norm_num; omega) (by norm_num; omega)]
    rfl
  · rename_i x
    obtain ⟨hP, rfl⟩ := h
    simp only [readBinaryScalar]
    rw [readUInt_enc 8 1 bo _ rest rfl (by norm_num; omega)]
    rfl
  · rename_i x
    obtain ⟨hP, rfl⟩ := h
    simp only [readBinaryScalar]
    have hsp := signedPattern_lt 16 x
    rw [readSInt_enc 16 2 bo _ rest rfl (by norm_num at hsp ⊢; exact hsp),
      toSigned_signedPattern 16 x (by norm_num) (by norm_num; omega) (by norm_num; omega)]
    rfl
  · rename_i x
    obtain ⟨hP, rfl⟩ := h
    simp only [readBinaryScalar]
    rw [readUInt_enc 16 2 bo _ rest rfl (by norm_num; omega)]
    rfl
  · rename_i x
    obtain ⟨hP, rfl⟩ := h
    simp only [readBinaryScalar]
    have hsp := signedPattern_lt 32 x
    rw [readSInt_enc 32 4 bo _ rest rfl (by norm_num at hsp ⊢; exact hsp),
      toSigned_signedPattern 32 x (by norm_num) (by norm_num; omega) (by norm_num; omega)]
    rfl
  · rename_i x
    obtain ⟨hP, rfl⟩ := h
    simp only [readBinaryScalar]
    rw [readUInt_enc 32 4 bo _ rest rfl (by norm_num; omega)]
    rfl
  · rename_i x
    obtain ⟨hP, rfl⟩ := h
    simp only [readBinaryScalar]
    rw [readUInt_enc 32 4 bo _ rest rfl (by norm_num; omega)]
    rfl
  · rename_i x
    obtain ⟨hP, rfl⟩ := h
    simp only [readBinaryScalar]
    rw [readUInt_enc 64 8 bo _ rest rfl (by norm_num; omega)]
    rfl

/-! ## List and count roundtrips through the two decoders -/

theorem read_ascii_list_enc {α : Type} (p : String → Option α) (render : α → List Char)
    (xs : List α) (rest : List String)
    (hrt : ∀ x ∈ xs, p (String.mk (render x)) = some x) :
    read_ascii_list p xs.length ((xs.map fun x => String.mk (render x)) ++ rest) =
      .ok (xs, rest) := by
  induction xs with
  | nil => rfl
  | cons x xs ih =>
    simp only [List.map_cons, List.length_cons, List.cons_append, read_ascii_list]
    rw [hrt x (List.mem_cons_self _ _)]
    show Except.map (fun pr => (x :: pr.1, pr.2))
      (read_ascii_list p xs.length ((xs.map fun x => String.mk (render x)) ++ rest)) = _
    rw [ih (fun y hy => hrt y (List.mem_cons_of_mem _ hy))]
    rfl

theorem listArm_enc {α : Type} (P : String → Option α) (g : List α → Property)
    (render : α → List Char) (xs : List α) (rest : List String)
    (hrt : ∀ x ∈ xs, P (String.mk (render x)) = some x) :
    Except.map (fun pr => (g pr.1, pr.2))
      (read_ascii_list P xs.length ((xs.map fun x => String.mk (render x)) ++ rest)) =
      .ok (g xs, rest) := by
  rw [read_ascii_list_enc P render xs rest hrt]
  rfl

theorem readBinaryListS_enc (w k : Nat) (bo : ByteOrder) (xs : List Int)
    (rest : List Nat) (hk : w / 8 = k)
    (hrt : ∀ x ∈ xs, toSigned w (signedPattern w x) = x ∧ signedPattern w x < 256 ^ k) :
    readBinaryListS w bo xs.length
      ((xs.map fun x => encBytes bo k (signedPattern w x)).flatten ++ rest) =
      .ok (xs, rest) := by
  induction xs with
  | nil => rfl
  | cons x xs ih =>
    simp only [List.map_cons, List.flatten_cons, List.length_cons, List.append_assoc,
      readBinaryListS]
    rw [readSInt_enc w k bo _ _ hk (hrt x (List.mem_cons_self _ _)).2,
      (hrt x (List.mem_cons_self _ _)).1]
    show Except.map (fun pr => (x :: pr.1, pr.2))
      (readBinaryListS w bo xs.length
        ((xs.map fun x => encBytes bo k (signedPattern w x)).flatten ++ rest)) = _
    rw [ih (fun y hy => hrt y (List.mem_cons_of_mem _ hy))]
    rfl

theorem readBinaryListU_enc (w k : Nat) (bo : ByteOrder) (xs : List Nat)
    (rest : List Nat) (hk : w / 8 = k) (hb : ∀ x ∈ xs, x < 256 ^ k) :
    readBinaryListU w bo xs.length
      ((xs.map fun x => encBytes bo k x).flatten ++ rest) = .ok (xs, rest) := by
  induction xs with
  | nil => rfl
  | cons x xs ih =>
    simp only [List.map_cons, List.flatten_cons, List.length_cons, List.append_assoc,
      readBinaryListU]
    rw [readUInt_enc w k bo _ _ hk (hb x (List.mem_cons_self _ _))]
    show Except.map (fun pr => (x :: pr.1, pr.2))
      (readBinaryListU w bo xs.length ((xs.map fun x => encBytes bo k x).flatten ++ rest)) = _
    rw [ih (fun y hy => hb y (List.mem_cons_of_mem _ hy))]
    rfl

theorem binListArmS (w k : Nat) (bo : ByteOrder) (g : List Int → Property)
    (xs : List Int) (rest : List Nat) (hk : w / 8 = k)
    (hrt : ∀ x ∈ xs, toSigned w (signedPattern w x) = x ∧ signedPattern w x < 256 ^ k) :
    Except.map (fun pr => (g pr.1, pr.2))
      (readBinaryListS w bo xs.length
        ((xs.map fun x => encBytes bo k (signedPattern w x)).flatten ++ rest)) =
      .ok (g xs, rest) := by
  rw [readBinaryListS_enc w k bo xs rest hk hrt]
  rfl

theorem binListArmU (w k : Nat) (bo : ByteOrder) (g : List Nat → Property)
    (xs : List Nat) (rest : List Nat) (hk : w / 8 = k) (hb : ∀ x ∈ xs, x < 256 ^ k) :
    Except.map (fun pr => (g pr.1, pr.2))
      (readBinaryListU w bo xs.length ((xs.map fun x => encBytes bo k x).flatten ++ rest)) =
      .ok (g xs, rest) := by
  rw [readBinaryListU_enc w k bo xs rest hk hb]
  rfl

theorem maxIndexVal_le_usize (t : ScalarType) (m : Nat) (h : maxIndexVal t = some m) :
    m ≤ usizeMax := by
  cases t <;> simp only [maxIndexVal, Option.some.injEq] at h <;>
    try exact Option.noConfusion h
  all_goals subst h
  all_goals simp only [usizeMax]
  all_goals omega

theorem readBinaryCount_enc (bo : ByteOrder) (it : ScalarType) (m len : Nat)
    (rest : List Nat) (hm : maxIndexVal it = some m) (hlen : len ≤ m) :
    readBinaryCount bo it (encBytes bo (byteWidth it) len ++ rest) = .ok (len, rest) := by
  cases it <;> simp only [maxIndexVal, Option.some.injEq] at hm <;>
    try exact Option.noConfusion hm
  · subst hm
    simp only [readBinaryCount, byteWidth]
    rw [readSInt_enc 8 1 bo _ _ rfl (by norm_num; omega)]
    have ht : toSigned 8 len = (len : Int) := by
      unfold toSigned
      rw [if_pos (by norm_num; omega)]
    rw [ht]
    have hc : castUsize (len : Int) = len := by
      unfold castUsize
      omega
    simp only [Except.map]
    rw [hc]
  · subst hm
    simp only [readBinaryCount, byteWidth]
    rw [readUInt_enc 8 1 bo _ _ rfl (by norm_num; omega)]
    rfl
  · subst hm
    simp only [readBinaryCount, byteWidth]
    rw [readSInt_enc 16 2 bo _ _ rfl (by norm_num; omega)]
    have ht : toSigned 16 len = (len : Int) := by
      unfold toSigned
      rw [if_pos (by norm_num; omega)]
    rw [ht]
    have hc : castUsize (len : Int) = len := by
      unfold castUsize
      omega
    simp only [Except.map]
    rw [hc]
  · subst hm
    simp only [readBinaryCount, byteWidth]
    rw [readUInt_enc 16 2 bo _ _ rfl (by norm_num; omega)]
    rfl
  · subst hm
    simp only [readBinaryCount, byteWidth]
    rw [readSInt_enc 32 4 bo _ _ rfl (by norm_num; omega)]
    have ht : toSigned 32 len = (len : Int) := by
      unfold toSigned
      rw [if_pos (by norm_num; omega)]
    rw [ht]
    have hc : castUsize (len : Int) = len := by
      unfold castUsize
      omega
    simp only [Except.map]
    rw [hc]
  · subst hm
    simp only [readBinaryCount, byteWidth]
    rw [readUInt_enc 32 4 bo _ _ rfl (by norm_num; omega)]
    rfl

/-! ## Property-level roundtrips through the two decoders -/

theorem read_ascii_property_enc (dt : PropertyType) (v : Property)
    (toks : List (List Char)) (rest : List String)
    (h : encodePropAscii dt v = some toks) :
    read_ascii_property dt (toks.map String.mk ++ rest) = .ok (v, rest) := by
  cases dt with
  | Scalar t =>
    simp only [encodePropAscii] at h
    rcases he : encodeScalarToken t v with _ | tok
    · rw [he] at h
      simp at h
    · rw [he] at h
      have h2 : some [tok] = some toks := h
      rw [Option.some.injEq] at h2
      subst h2
      simp only [List.map_cons, List.map_nil, List.cons_append, List.nil_append,
        read_ascii_property]
      rw [parseScalarProp_enc t v tok he]
  | List it et =>
    simp only [encodePropAscii] at h
    rcases hm : maxIndexVal it with _ | m
    · rw [hm] at h
      simp at h
    · rw [hm] at h
      rcases he : encodeListTokens et v with _ | pr
      · rw [he] at h
        simp at h
      · obtain ⟨len, etoks⟩ := pr
        rw [he] at h
        have h2 : (if len ≤ m then some (renderNat len :: etoks) else none) = some toks := h
        rw [Option.ite_none_right_eq_some, Option.some.injEq] at h2
        obtain ⟨hlen, rfl⟩ := h2
        simp only [List.map_cons, List.cons_append, read_ascii_property, stringMk_data]
        rw [parseUnsigned_renderNat _ _ (le_trans hlen (maxIndexVal_le_usize it m hm))]
        cases et <;> cases v <;>
          simp only [encodeListTokens, Option.ite_none_right_eq_some, Option.some.injEq,
            Prod.mk.injEq] at he <;>
          try exact Option.noConfusion he
        · rename_i xs
          obtain ⟨hr, hlen2, hetoks⟩ := he
          subst hlen2
          subst hetoks
          rw [List.map_map]
          exact listArm_enc (fun s => parseSigned (-128) 127 s.data) Property.ListChar
            renderInt xs rest
            (fun x hx => parseSigned_renderInt (-128) 127 x (hr x hx).1 (hr x hx).2)
        · rename_i xs
          obtain ⟨hr, hlen2, hetoks⟩ := he
          subst hlen2
          subst hetoks
          rw [List.map_map]
          exact listArm_enc (fun s => parseUnsigned 255 s.data) Property.ListUChar
            renderNat xs rest (fun x hx => parseUnsigned_renderNat 255 x (hr x hx))
        · rename_i xs
          obtain ⟨hr, hlen2, hetoks⟩ := he
          subst hlen2
          subst hetoks
          rw [List.map_map]
          exact listArm_enc (fun s => parseSigned (-32768) 32767 s.data) Property.ListShort
            renderInt xs rest
            (fun x hx => parseSigned_renderInt (-32768) 32767 x (hr x hx).1 (hr x hx).2)
        · rename_i xs
          obtain ⟨hr, hlen2, hetoks⟩ := he
          subst hlen2
          subst hetoks
          rw [List.map_map]
          exact listArm_enc (fun s => parseUnsigned 65535 s.data) Property.ListUShort
            renderNat xs rest (fun x hx => parseUnsigned_renderNat 65535 x (hr x hx))
        · rename_i xs
          obtain ⟨hr, hlen2, hetoks⟩ := he
          subst hlen2
          subst hetoks
          rw [List.map_map]
          exact listArm_enc (fun s => parseSigned (-2147483648) 2147483647 s.data)
            Property.ListInt renderInt xs rest
            (fun x hx =>
              parseSigned_renderInt (-2147483648) 2147483647 x (hr x hx).1 (hr x hx).2)
        · rename_i xs
          obtain ⟨hr, hlen2, hetoks⟩ := he
          subst hlen2
          subst hetoks
          rw [List.map_map]
          exact listArm_enc (fun s => parseUnsigned 4294967295 s.data) Property.ListUInt
            renderNat xs rest (fun x hx => parseUnsigned_renderNat 4294967295 x (hr x hx))
        · rename_i xs
          obtain ⟨hr, hlen2, hetoks⟩ := he
          subst hlen2
          subst hetoks
          rw [List.map_map]
          exact listArm_enc (fun s => parseFloatBits 32 s.data) Property.ListFloat
            renderNat xs rest (fun x hx => parseFloatBits_renderNat 32 x (hr x hx))
        · rename_i xs
          obtain ⟨hr, hlen2, hetoks⟩ := he
          subst hlen2
          subst hetoks
          rw [List.map_map]
          exact listArm_enc (fun s => parseFloatBits 64 s.data) Property.ListDouble
            renderNat xs rest (fun x hx => parseFloatBits_renderNat 64 x (hr x hx))

theorem read_binary_property_enc (bo : ByteOrder) (dt : PropertyType) (v : Property)
    (bytes rest : List Nat) (h : encodePropBytes bo dt v = some bytes) :
    read_binary_property bo dt (bytes ++ rest) = .ok (v, rest) := by
  cases dt with
  | Scalar t => exact readBinaryScalar_enc bo t v bytes rest h
  | List it et =>
    simp only [encodePropBytes] at h
    rcases hm : maxIndexVal it with _ | m
    · rw [hm] at h
      simp at h
    · rw [hm] at h
      rcases he : encodeListBytes bo et v with _ | pr
      · rw [he] at h
        simp at h
      · obtain ⟨len, ebytes⟩ := pr
        rw [he] at h
        have h2 : (if len ≤ m then some (encBytes bo (byteWidth it) len ++ ebytes)
            else none) = some bytes := h
        rw [Option.ite_none_right_eq_some, Option.some.injEq] at h2
        obtain ⟨hlen, rfl⟩ := h2
        rw [List.append_assoc]
        simp only [read_binary_property]
        rw [readBinaryCount_enc bo it m len _ hm hlen]
        cases et <;> cases v <;>
          simp only [encodeListBytes, Option.ite_none_right_eq_some, Option.some.injEq,
            Prod.mk.injEq] at he <;>
          try exact Option.noConfusion he
        · rename_i xs
          obtain ⟨hr, hlen2, hebytes⟩ := he
          subst hlen2
          subst hebytes
          exact binListArmS 8 1 bo Property.ListChar xs rest rfl
            (fun x hx => ⟨toSigned_signedPattern 8 x (by norm_num)
                (by have := hr x hx; norm_num; omega) (by have := hr x hx; norm_num; omega),
              by have := signedPattern_lt 8 x; norm_num at this ⊢; exact this⟩)
        · rename_i xs
          obtain ⟨hr, hlen2, hebytes⟩ := he
          subst hlen2
          subst hebytes
          exact binListArmU 8 1 bo Property.ListUChar xs rest rfl
            (fun x hx => by have := hr x hx; norm_num; omega)
        · rename_i xs
          obtain ⟨hr, hlen2, hebytes⟩ := he
          subst hlen2
          subst hebytes
          exact binListArmS 16 2 bo Property.ListShort xs rest rfl
            (fun x hx => ⟨toSigned_signedPattern 16 x (by norm_num)
                (by have := hr x hx; norm_num; omega) (by have := hr x hx; norm_num; omega),
              by have := signedPattern_lt 16 x; norm_num at this ⊢; exact this⟩)
        · rename_i xs
          obtain ⟨hr, hlen2, hebytes⟩ := he
          subst hlen2
          subst hebytes
          exact binListArmU 16 2 bo Property.ListUShort xs rest rfl
            (fun x hx => by have := hr x hx; norm_num; omega)
        · rename_i xs
          obtain ⟨hr, hlen2, hebytes⟩ := he
          subst hlen2
          subst hebytes
          exact binListArmS 32 4 bo Property.ListInt xs rest rfl
            (fun x hx => ⟨toSigned_signedPattern 32 x (by norm_num)
                (by have := hr x hx; norm_num; omega) (by have := hr x hx; norm_num; omega),
              by have := signedPattern_lt 32 x; norm_num at this ⊢; exact this⟩)
        · rename_i xs
          obtain ⟨hr, hlen2, hebytes⟩ := he
          subst hlen2
          subst hebytes
          exact binListArmU 32 4 bo Property.ListUInt xs rest rfl
            (fun x hx => by have := hr x hx; norm_num; omega)
        · rename_i xs
          obtain ⟨hr, hlen2, hebytes⟩ := he
          subst hlen2
          subst hebytes
          exact binListArmU 32 4 bo Property.ListFloat xs rest rfl
            (fun x hx => by have := hr x hx; norm_num; omega)
        · rename_i xs
          obtain ⟨hr, hlen2, hebytes⟩ := he
          subst hlen2
          subst hebytes
          exact binListArmU 64 8 bo Property.ListDouble xs rest rfl
            (fun x hx => by have := hr x hx; norm_num; omega)

/-! ## Record-level roundtrips and the equivalence claim -/

theorem readAsciiProps_enc (defs : List PropertyDef) (vs : List Property)
    (toks : List (List Char)) (rest : List String) (acc : Elem)
    (h : encodeRecordTokens defs vs = some toks) :
    readAsciiProps defs (toks.map String.mk ++ rest) acc =
      .ok (buildElem acc defs vs, rest) := by
  induction defs generalizing vs toks acc with
  | nil =>
    cases vs with
    | nil =>
      have h2 : some ([] : List (List Char)) = some toks := h
      rw [Option.some.injEq] at h2
      subst h2
      rfl
    | cons v vs => simp [encodeRecordTokens] at h
  | cons d defs ih =>
    cases vs with
    | nil => simp [encodeRecordTokens] at h
    | cons v vs =>
      simp only [encodeRecordTokens] at h
      rcases hp : encodePropAscii d.data_type v with _ | ptoks
      · rw [hp] at h
        simp at h
      · rw [hp] at h
        rcases hrec : encodeRecordTokens defs vs with _ | more
        · rw [hrec] at h
          simp at h
        · rw [hrec] at h
          have h2 : some (ptoks ++ more) = some toks := h
          rw [Option.some.injEq] at h2
          subst h2
          rw [List.map_append, List.append_assoc]
          simp only [readAsciiProps]
          rw [read_ascii_property_enc d.data_type v ptoks _ hp]
          show readAsciiProps defs (more.map String.mk ++ rest)
            (acc.set_property d.name v) = _
          rw [ih vs more _ hrec]
          rfl

theorem readBinaryProps_enc (bo : ByteOrder) (defs : List PropertyDef)
    (vs : List Property) (bytes rest : List Nat) (acc : Elem)
    (h : encodeRecordBytes bo defs vs = some bytes) :
    readBinaryProps bo defs (bytes ++ rest) acc =
      .ok (buildElem acc defs vs, rest) := by
  induction defs generalizing vs bytes acc with
  | nil =>
    cases vs with
    | nil =>
      have h2 : some ([] : List Nat) = some bytes := h
      rw [Option.some.injEq] at h2
      subst h2
      rfl
    | cons v vs => simp [encodeRecordBytes] at h
  | cons d defs ih =>
    cases vs with
    | nil => simp [encodeRecordBytes] at h
    | cons v vs =>
      simp only [encodeRecordBytes] at h
      rcases hp : encodePropBytes bo d.data_type v with _ | pbytes
      · rw [hp] at h
        simp at h
      · rw [hp] at h
        rcases hrec : encodeRecordBytes bo defs vs with _ | more
        · rw [hrec] at h
          simp at h
        · rw [hrec] at h
          have h2 : some (pbytes ++ more) = some bytes := h
          rw [Option.some.injEq] at h2
          subst h2
          rw [List.append_assoc]
          simp only [readBinaryProps]
          rw [read_binary_property_enc bo d.data_type v pbytes _ hp]
          show readBinaryProps bo defs (more ++ rest) (acc.set_property d.name v) = _
          rw [ih vs more _ hrec]
          rfl

/-- Well-formedness of a rendered ascii token: nonempty, built only from
digits and the sign, and matching the numeric literal grammar. -/
def tokGood (t : List Char) : Prop :=
  t ≠ [] ∧ (∀ c ∈ t, c.isDigit = true ∨ c = '-') ∧ isNumericToken t = true

theorem tokGood_renderNat (n : Nat) : tokGood (renderNat n) :=
  ⟨renderNat_ne_nil n, fun c hc => Or.inl (renderNat_digits n c hc),
    isNumericToken_renderNat n⟩

theorem tokGood_renderInt (i : Int) : tokGood (renderInt i) :=
  ⟨renderInt_ne_nil i, renderInt_chars i, isNumericToken_renderInt i⟩

theorem encodeScalarToken_good (t : ScalarType) (v : Property) (tok : List Char)
    (h : encodeScalarToken t v = some tok) : tokGood tok := by
  cases t <;> cases v <;>
    simp only [encodeScalarToken, Option.ite_none_right_eq_some,
      Option.some.injEq] at h <;>
    try exact Option.noConfusion h
  all_goals obtain ⟨hP, rfl⟩ := h
  all_goals first
    | exact tokGood_renderInt _
    | exact tokGood_renderNat _

theorem encodeListTokens_good (et : ScalarType) (v : Property) (len : Nat)
    (etoks : List (List Char)) (h : encodeListTokens et v = some (len, etoks)) :
    ∀ t ∈ etoks, tokGood t := by
  cases et <;> cases v <;>
    simp only [encodeListTokens, Option.ite_none_right_eq_some, Option.some.injEq,
      Prod.mk.injEq] at h <;>
    try exact Option.noConfusion h
  all_goals obtain ⟨hr, hlen, hetoks⟩ := h
  all_goals subst hetoks
  all_goals intro tok htok
  all_goals obtain ⟨x, hx, rfl⟩ := List.mem_map.mp htok
  all_goals first
    | exact tokGood_renderInt _
    | exact tokGood_renderNat _

theorem encodePropAscii_good (dt : PropertyType) (v : Property)
    (toks : List (List Char)) (h : encodePropAscii dt v = some toks) :
    ∀ t ∈ toks, tokGood t := by
  cases dt with
  | Scalar t =>
    simp only [encodePropAscii] at h
    rcases he : encodeScalarToken t v with _ | tok
    · rw [he] at h
      simp at h
    · rw [he] at h
      have h2 : some [tok] = some toks := h
      rw [Option.some.injEq] at h2
      subst h2
      intro t2 ht2
      rw [List.mem_singleton] at ht2
      subst ht2
      exact encodeScalarToken_good t v t2 he
  | List it et =>
    simp only [encodePropAscii] at h
    rcases hm : maxIndexVal it with _ | m
    · rw [hm] at h
      simp at h
    · rw [hm] at h
      rcases he : encodeListTokens et v with _ | pr
      · rw [he] at h
        simp at h
      · obtain ⟨len, etoks⟩ := pr
        rw [he] at h
        have h2 : (if len ≤ m then some (renderNat len :: etoks) else none) = some toks := h
        rw [Option.ite_none_right_eq_some, Option.some.injEq] at h2
        obtain ⟨hlen, rfl⟩ := h2
        intro t2 ht2
        rcases List.mem_cons.mp ht2 with rfl | ht2
        · exact tokGood_renderNat len
        · exact encodeListTokens_good et v len etoks he t2 ht2

theorem encodeRecordTokens_good (defs : List PropertyDef) (vs : List Property)
    (toks : List (List Char)) (h : encodeRecordTokens defs vs = some toks) :
    ∀ t ∈ toks, tokGood t := by
  induction defs generalizing vs toks with
  | nil =>
    cases vs with
    | nil =>
      have h2 : some ([] : List (List Char)) = some toks := h
      rw [Option.some.injEq] at h2
      subst h2
      simp
    | cons v vs => simp [encodeRecordTokens] at h
  | cons d defs ih =>
    cases vs with
    | nil => simp [encodeRecordTokens] at h
    | cons v vs =>
      simp only [encodeRecordTokens] at h
      rcases hp : encodePropAscii d.data_type v with _ | ptoks
      · rw [hp] at h
        simp at h
      · rw [hp] at h
        rcases hrec : encodeRecordTokens defs vs with _ | more
        · rw [hrec] at h
          simp at h
        · rw [hrec] at h
          have h2 : some (ptoks ++ more) = some toks := h
          rw [Option.some.injEq] at h2
          subst h2
          intro t2 ht2
          rcases List.mem_append.mp ht2 with ht2 | ht2
          · exact encodePropAscii_good d.data_type v ptoks hp t2 ht2
          · exact ih vs more hrec t2 ht2

theorem read_ascii_element_enc (ed : ElementDef) (vs : List Property) (line : String)
    (h : encodeRecordLine ed.properties vs = some line) :
    read_ascii_element line ed = .ok (buildElem Elem.new ed.properties vs) := by
  simp only [encodeRecordLine] at h
  rcases ht : encodeRecordTokens ed.properties vs with _ | toks
  · rw [ht] at h
    simp at h
  · rw [ht] at h
    have h2 : some (String.mk (joinTokens toks)) = some line := h
    rw [Option.some.injEq] at h2
    subst h2
    have hgood := encodeRecordTokens_good ed.properties vs toks ht
    simp only [read_ascii_element]
    rw [dataLine_join toks (fun t htk => (hgood t htk).1)
      (fun t htk => (hgood t htk).2.1) (fun t htk => (hgood t htk).2.2)]
    have hprops := readAsciiProps_enc ed.properties vs toks [] Elem.new ht
    rw [List.append_nil] at hprops
    show (readAsciiProps ed.properties (toks.map String.mk) Elem.new).map Prod.fst = _
    rw [hprops]
    rfl

theorem read_binary_element_enc (bo : ByteOrder) (ed : ElementDef) (vs : List Property)
    (bytes : List Nat) (h : encodeRecordBytes bo ed.properties vs = some bytes) :
    read_binary_element bo ed bytes = .ok (buildElem Elem.new ed.properties vs, []) := by
  have hprops := readBinaryProps_enc bo ed.properties vs bytes [] Elem.new h
  rw [List.append_nil] at hprops
  exact hprops

theorem loopAscii_one (ed : ElementDef) (line : String) (v : Elem)
    (h : read_ascii_element line ed = .ok v) :
    readAsciiPayloadLoop ed 1 [line] = .ok ([v], []) := by
  have hstep : readAsciiPayloadLoop ed 1 [line] =
      match read_ascii_element line ed with
      | .error e => .error e
      | .ok el => (readAsciiPayloadLoop ed 0 []).map fun pr => (el :: pr.1, pr.2) := rfl
  rw [hstep, h]
  rfl

theorem loopBin_one (bo : ByteOrder) (ed : ElementDef) (bs : List Nat) (v : Elem)
    (h : read_binary_element bo ed bs = .ok (v, [])) :
    readBinaryPayloadLoop bo ed 1 bs = .ok ([v], []) := by
  have hstep : readBinaryPayloadLoop bo ed 1 bs =
      match read_binary_element bo ed bs with
      | .error e => .error e
      | .ok (el, rest) =>
        (readBinaryPayloadLoop bo ed 0 rest).map fun pr => (el :: pr.1, pr.2) := rfl
  rw [hstep, h]
  rfl

/-- **Claim C3.** For any element declaration and any record value rendered
consistently in the three encodings (the same values as one ascii line, as
big-endian bytes, and as little-endian bytes), `read_payload_for_element` —
dispatched on the header's declared encoding — produces structurally equal
generic elements from all three renderings: the same `Property` variant with
the same scalar or list contents for every declared property. -/
theorem claim_C3 (ed : ElementDef) (vs : List Property) (line : String)
    (bbe ble : List Nat) (hA hB hL : Header)
    (hcount : ed.count = 1)
    (heA : hA.encoding = .Ascii) (heB : hB.encoding = .BinaryBigEndian)
    (heL : hL.encoding = .BinaryLittleEndian)
    (ha : encodeRecordLine ed.properties vs = some line)
    (hb : encodeRecordBytes .BE ed.properties vs = some bbe)
    (hl : encodeRecordBytes .LE ed.properties vs = some ble) :
    ∃ v, read_payload_for_element hA [line] [] ed = .ok [v] ∧
      read_payload_for_element hB [] bbe ed = .ok [v] ∧
      read_payload_for_element hL [] ble ed = .ok [v] := by
  refine ⟨buildElem Elem.new ed.properties vs, ?_, ?_, ?_⟩
  · simp only [read_payload_for_element, heA, read_ascii_payload_for_element, hcount]
    rw [loopAscii_one ed line _ (read_ascii_element_enc ed vs line ha)]
    rfl
  · simp only [read_payload_for_element, heB, read_binary_payload_for_element, hcount]
    rw [loopBin_one .BE ed bbe _ (read_binary_element_enc .BE ed vs bbe hb)]
    rfl
  · simp only [read_payload_for_element, heL, read_binary_payload_for_element, hcount]
    rw [loopBin_one .LE ed ble _ (read_binary_element_enc .LE ed vs ble hl)]
    rfl

/-- A concrete element declaration: a signed char scalar, a short list with a
uchar index, and a float scalar. -/
def edC3 : ElementDef :=
  { name := "vertex", count := 1,
    properties := [⟨"a", .Scalar .Char⟩, ⟨"l", .List .UChar .Short⟩,
      ⟨"f", .Scalar .Float⟩] }

/-- A concrete record for `edC3` (`1078530011` is the bit pattern of the
`f32` closest to π). -/
def vsC3 : List Property := [.Char (-5), .ListShort [300, -7], .Float 1078530011]

def hdrAsciiC3 : Header := ⟨.Ascii, ⟨1, 0⟩, [], [], [edC3]⟩

def hdrBEC3 : Header := ⟨.BinaryBigEndian, ⟨1, 0⟩, [], [], [edC3]⟩

def hdrLEC3 : Header := ⟨.BinaryLittleEndian, ⟨1, 0⟩, [], [], [edC3]⟩

theorem claim_C3_witness :
    ∃ v, read_payload_for_element hdrAsciiC3 ["-5 2 300 -7 1078530011"] [] edC3 =
        .ok [v] ∧
      read_payload_for_element hdrBEC3 []
        [251, 2, 1, 44, 255, 249, 64, 73, 15, 219] edC3 = .ok [v] ∧
      read_payload_for_element hdrLEC3 []
        [251, 2, 44, 1, 249, 255, 219, 15, 73, 64] edC3 = .ok [v] :=
  claim_C3 edC3 vsC3 "-5 2 300 -7 1078530011"
    [251, 2, 1, 44, 255, 249, 64, 73, 15, 219]
    [251, 2, 44, 1, 249, 255, 219, 15, 73, 64]
    hdrAsciiC3 hdrBEC3 hdrLEC3 rfl rfl rfl rfl
    (by simp [encodeRecordLine, encodeRecordTokens, encodePropAscii, encodeScalarToken,
      encodeListTokens, maxIndexVal, renderNat, renderInt, toDecAux, digitChar, joinTokens])
    (by decide) (by decide)

end PlyRs
